import Mathlib

/-!
Verification development for the NFA core of the Lexical-Analyzer-Generator
repository (`src/fa.py`, `src/nfa.py`).

The Python code stores automata in a `networkx.MultiDiGraph` whose edge
attribute `weight` is either the epsilon marker string `'ε'`, the Python
`repr` of a literal character (written by `NFA.concatenate_node`), or the
integer ordinal of a character (written by `NFA.add_nodes_in_range`).  We
embed such dynamically typed weights as the `PyVal` type, a graph as its
insertion-ordered edge list together with the node-attribute association
list for `'acceptance'`, and the mutable `NFA` objects as records with
optional start/end nodes plus an explicitly threaded global node counter
(`NFA.__cni`).  Fallible Python code (IndexError, TypeError on `None`,
`ValueError` for malformed ranges) is embedded with `Except`.
-/

set_option maxRecDepth 10000

/-- A dynamically typed Python value as it occurs in edge `weight`
attributes: either a string or an integer (character ordinal). -/
inductive PyVal : Type where
  | str : String → PyVal
  | int : Nat → PyVal
deriving DecidableEq, Repr

/-- The epsilon marker `FA.epsilon = 'ε'` as a character. -/
def epsChar : Char := 'ε'

/-- The epsilon marker as the stored weight string. -/
def epsStr : String := "ε"

/-- The epsilon marker as a stored weight value. -/
def epsV : PyVal := PyVal.str epsStr

/-- One-character Lean string. -/
def charToStr (c : Char) : String := ⟨[c]⟩

/-- A directed labelled edge `(source, destination, weight)` of the
`MultiDiGraph`. -/
structure Edge : Type where
  src : Nat
  dst : Nat
  w : PyVal
deriving DecidableEq, Repr

/-- A `networkx.MultiDiGraph` as used by the code: the edge list in
insertion order (parallel edges allowed, the first edge added between a
pair of nodes is the one with key `0`), plus the `'acceptance'` node
attributes as an association list whose most recent binding comes first. -/
structure Graph : Type where
  edges : List Edge
  acc : List (Nat × String)
deriving DecidableEq, Repr

/-- The empty graph that `FA.__init__` creates. -/
def Graph.empty : Graph := ⟨[], []⟩

/-- `graph.add_weighted_edges_from([(u, v, w)])`. -/
def Graph.addEdge (g : Graph) (e : Edge) : Graph := ⟨g.edges ++ [e], g.acc⟩

/-- `networkx.compose(g1, g2)`: union of nodes and edges; on common node
attributes the right graph wins.  The compiled fragments always have
disjoint node sets (node indices are globally unique), so the edge lists
are simply concatenated and the acceptance attributes of `g2` shadow
those of `g1`. -/
def Graph.compose (g1 g2 : Graph) : Graph := ⟨g1.edges ++ g2.edges, g2.acc ++ g1.acc⟩

/-- `graph.node[n]['acceptance'] = name` on an already present node. -/
def Graph.setAcc (g : Graph) (n : Nat) (name : String) : Graph :=
  ⟨g.edges, (n, name) :: g.acc⟩

/-- Reading `graph.node[n]['acceptance']`, as done by
`NFA.get_token_name_from_acceptance_node` (returns `None` when absent). -/
def Graph.lookupAcc (g : Graph) (n : Nat) : Option String :=
  (g.acc.find? (fun p => p.1 = n)).map Prod.snd

/-- The node set of the graph (every node of these graphs is an endpoint
of some edge; `add_weighted_edges_from` is the only node producer). -/
def Graph.nodeSet (g : Graph) : Finset Nat :=
  g.edges.foldr (fun e s => insert e.src (insert e.dst s)) ∅

/-- `graph.neighbors(n)`: the distinct successors of `n`.  (For a node
absent from the graph networkx raises; the claims only ever close over
node sets drawn from the graph, where both semantics agree.) -/
def Graph.neighbors (g : Graph) (n : Nat) : List Nat :=
  ((g.edges.filter (fun e => e.src = n)).map Edge.dst).dedup

/-- `graph.get_edge_data(u, v)[0]['weight']`: the weight of the edge with
key `0`, i.e. of the first edge inserted from `u` to `v`. -/
def Graph.firstEdgeWeight (g : Graph) (u v : Nat) : Option PyVal :=
  (g.edges.find? (fun e => e.src = u && e.dst = v)).map Edge.w

/-- Python `repr` escaping of a single character of a string literal.
Only the backslash needs an escape among the characters this compiler
ever stores; non-printable characters are modelled up to the round trip
`eval (repr s) = s`, which is all `FA.move` observes. -/
def pyEscape (c : Char) : List Char := if c = '\\' then ['\\', '\\'] else [c]

/-- Python `repr` of a string: single-quoted unless the string contains a
single quote (then double-quoted), with backslashes escaped. -/
def pyReprStr (s : String) : String :=
  if s.toList.contains '\'' then ⟨'"' :: (s.toList.flatMap pyEscape) ++ ['"']⟩
  else ⟨'\'' :: (s.toList.flatMap pyEscape) ++ ['\'']⟩

/-- Undo `pyEscape` on the body of a string literal. -/
def pyUnescape : List Char → Option (List Char)
  | [] => some []
  | '\\' :: c :: rest =>
      if c = '\\' then (pyUnescape rest).map (fun l => '\\' :: l) else none
  | '\\' :: [] => none
  | c :: rest => (pyUnescape rest).map (fun l => c :: l)

/-- Python `eval` restricted to the string literals `pyReprStr` produces:
a quoted literal evaluates to its unescaped body, anything else raises
(`NameError`/`SyntaxError`), modelled as `none`. -/
def pyEvalStr (s : String) : Option String :=
  match s.toList with
  | [] => none
  | d :: rest =>
      if d = '\'' || d = '"' then
        match rest.getLast? with
        | some e =>
            if e = d then (pyUnescape rest.dropLast).map (fun l => (⟨l⟩ : String))
            else none
        | none => none
      else none

/-- The weight normalization `FA.move` performs on every edge it
inspects:
`weight = weight if weight == FA.epsilon else eval(weight)` with
`except TypeError: weight = chr(weight)` (integer ordinals) and
`except (NameError, SyntaxError): pass` (strings that are not literals).
-/
def normalizeWeight : PyVal → PyVal
  | PyVal.str s =>
      if s = epsStr then PyVal.str s
      else
        match pyEvalStr s with
        | some t => PyVal.str t
        | none => PyVal.str s
  | PyVal.int n => PyVal.str (charToStr (Char.ofNat n))

/-- Python `str` of a weight value. -/
def pyStr : PyVal → String
  | PyVal.str s => s
  | PyVal.int n => toString n

/-- The comparison `str(weight) == str(input)` in `FA.move`, after the
weight has been normalized; `x` is the input symbol (a string). -/
def matchesInput (w : PyVal) (x : String) : Prop := pyStr (normalizeWeight w) = x

instance (w : PyVal) (x : String) : Decidable (matchesInput w x) := by
  unfold matchesInput; infer_instance

/-- `FA.__epsilon_closure(node)`: the node itself plus every neighbor
whose key-`0` edge carries the epsilon weight. -/
def epsilonClosure1 (g : Graph) (n : Nat) : Finset Nat :=
  insert n (((g.neighbors n).filter (fun v => g.firstEdgeWeight n v = some epsV)).toFinset)

/-- One round of `FA.get_epsilon_closures`: the single-state closures of
all current nodes. -/
def closureStep (g : Graph) (s : Finset Nat) : Finset Nat :=
  s.biUnion (epsilonClosure1 g)

/-- Fuelled form of the recursion in `FA.get_epsilon_closures`: collect
the single-state closures of the current set; if nothing new appeared,
stop, otherwise recurse on the enlarged set. -/
def getEpsilonClosuresF (g : Graph) : Nat → Finset Nat → Finset Nat
  | 0, nodes => nodes
  | fuel + 1, nodes =>
      if closureStep g nodes \ nodes = ∅ then nodes
      else getEpsilonClosuresF g fuel (nodes ∪ (closureStep g nodes \ nodes))

/-- `FA.get_epsilon_closures(nodes)`.  Each recursion step adds at least
one node of the graph, so `(nodeSet g).card + 1` rounds of fuel always
reach the fixpoint the Python recursion terminates at. -/
def getEpsilonClosures (g : Graph) (nodes : Finset Nat) : Finset Nat :=
  getEpsilonClosuresF g (g.nodeSet.card + 1) nodes

theorem mem_nodeSet_of_mem_edges {l : List Edge} {e : Edge} (h : e ∈ l) :
    e.src ∈ l.foldr (fun e s => insert e.src (insert e.dst s)) (∅ : Finset Nat) ∧
    e.dst ∈ l.foldr (fun e s => insert e.src (insert e.dst s)) (∅ : Finset Nat) := by
  induction l with
  | nil => cases h
  | cons a t ih =>
      rcases List.mem_cons.mp h with rfl | ht
      · simp
      · obtain ⟨h1, h2⟩ := ih ht
        simp only [List.foldr, Finset.mem_insert]
        exact ⟨Or.inr (Or.inr h1), Or.inr (Or.inr h2)⟩

theorem src_mem_nodeSet {g : Graph} {e : Edge} (h : e ∈ g.edges) : e.src ∈ g.nodeSet :=
  (mem_nodeSet_of_mem_edges h).1

theorem dst_mem_nodeSet {g : Graph} {e : Edge} (h : e ∈ g.edges) : e.dst ∈ g.nodeSet :=
  (mem_nodeSet_of_mem_edges h).2

theorem neighbors_subset_nodeSet {g : Graph} {n x : Nat} (h : x ∈ g.neighbors n) :
    x ∈ g.nodeSet := by
  simp only [Graph.neighbors, List.mem_dedup, List.mem_map, List.mem_filter] at h
  obtain ⟨e, ⟨he, _⟩, hdst⟩ := h
  exact hdst ▸ dst_mem_nodeSet he

theorem epsilonClosure1_newcomer {g : Graph} {n x : Nat}
    (hx : x ∈ epsilonClosure1 g n) (hne : x ≠ n) : x ∈ g.nodeSet := by
  simp only [epsilonClosure1, Finset.mem_insert, List.mem_toFinset, List.mem_filter] at hx
  rcases hx with rfl | ⟨hx, _⟩
  · exact absurd rfl hne
  · exact neighbors_subset_nodeSet hx

theorem closureStep_newcomer {g : Graph} {S : Finset Nat} {x : Nat}
    (hx : x ∈ closureStep g S) (hnot : x ∉ S) : x ∈ g.nodeSet := by
  simp only [closureStep, Finset.mem_biUnion] at hx
  obtain ⟨n, hn, hxn⟩ := hx
  exact epsilonClosure1_newcomer hxn (by rintro rfl; exact hnot hn)

theorem subset_getEpsilonClosuresF (g : Graph) :
    ∀ fuel S, S ⊆ getEpsilonClosuresF g fuel S := by
  intro fuel
  induction fuel with
  | zero => intro S; simp [getEpsilonClosuresF]
  | succ n ih =>
      intro S
      simp only [getEpsilonClosuresF]
      split
      · exact Finset.Subset.refl S
      · exact Finset.Subset.trans Finset.subset_union_left (ih _)

theorem subset_getEpsilonClosures (g : Graph) (S : Finset Nat) :
    S ⊆ getEpsilonClosures g S :=
  subset_getEpsilonClosuresF g _ S

theorem closF_closed (g : Graph) :
    ∀ fuel S, (g.nodeSet \ S).card < fuel →
      closureStep g (getEpsilonClosuresF g fuel S) ⊆ getEpsilonClosuresF g fuel S := by
  intro fuel
  induction fuel with
  | zero => intro S h; exact absurd h (Nat.not_lt_zero _)
  | succ n ih =>
      intro S h
      by_cases hf : closureStep g S \ S = ∅
      · simp only [getEpsilonClosuresF, hf, if_true]
        exact Finset.sdiff_eq_empty_iff_subset.mp hf
      · simp only [getEpsilonClosuresF, hf, if_false]
        apply ih
        obtain ⟨x, hx⟩ := Finset.nonempty_iff_ne_empty.mpr hf
        obtain ⟨hx1, hx2⟩ := Finset.mem_sdiff.mp hx
        have hxN : x ∈ g.nodeSet := closureStep_newcomer hx1 hx2
        have hsub : g.nodeSet \ (S ∪ (closureStep g S \ S)) ⊆ g.nodeSet \ S :=
          Finset.sdiff_subset_sdiff (Finset.Subset.refl _) Finset.subset_union_left
        have hxmem : x ∈ g.nodeSet \ S := Finset.mem_sdiff.mpr ⟨hxN, hx2⟩
        have hxnot : x ∉ g.nodeSet \ (S ∪ (closureStep g S \ S)) := by
          simp only [Finset.mem_sdiff, Finset.mem_union, not_and, not_not]
          intro _
          exact Or.inr ⟨hx1, hx2⟩
        have hss : g.nodeSet \ (S ∪ (closureStep g S \ S)) ⊂ g.nodeSet \ S :=
          Finset.ssubset_def.mpr ⟨hsub, fun hc => hxnot (hc hxmem)⟩
        have := Finset.card_lt_card hss
        omega

theorem getEpsilonClosures_closed (g : Graph) (S : Finset Nat) :
    closureStep g (getEpsilonClosures g S) ⊆ getEpsilonClosures g S :=
  closF_closed g _ S
    (Nat.lt_succ_of_le (Finset.card_le_card Finset.sdiff_subset))

theorem closF_of_closed {g : Graph} {S : Finset Nat}
    (h : closureStep g S ⊆ S) (fuel : Nat) : getEpsilonClosuresF g fuel S = S := by
  cases fuel with
  | zero => rfl
  | succ n =>
      simp only [getEpsilonClosuresF, Finset.sdiff_eq_empty_iff_subset.mpr h, if_true]

theorem closF_subset_of_closed {g : Graph} {T : Finset Nat}
    (hT : ∀ n ∈ T, epsilonClosure1 g n ⊆ T) :
    ∀ fuel S, S ⊆ T → getEpsilonClosuresF g fuel S ⊆ T := by
  intro fuel
  induction fuel with
  | zero => intro S hST; exact hST
  | succ n ih =>
      intro S hST
      simp only [getEpsilonClosuresF]
      split
      · exact hST
      · apply ih
        apply Finset.union_subset hST
        apply Finset.Subset.trans Finset.sdiff_subset
        intro x hx
        simp only [closureStep, Finset.mem_biUnion] at hx
        obtain ⟨m, hm, hxm⟩ := hx
        exact hT m (hST hm) hxm

theorem getEpsilonClosures_subset_of_closed {g : Graph} {S T : Finset Nat}
    (hT : ∀ n ∈ T, epsilonClosure1 g n ⊆ T) (hST : S ⊆ T) :
    getEpsilonClosures g S ⊆ T :=
  closF_subset_of_closed hT _ S hST

theorem getEpsilonClosures_isClosed (g : Graph) (S : Finset Nat) :
    ∀ n ∈ getEpsilonClosures g S, epsilonClosure1 g n ⊆ getEpsilonClosures g S := by
  intro n hn
  exact Finset.Subset.trans (Finset.subset_biUnion_of_mem (epsilonClosure1 g) hn)
    (getEpsilonClosures_closed g S)

theorem getEpsilonClosures_eq {g : Graph} {S T : Finset Nat} (hST : S ⊆ T)
    (hcl : ∀ n ∈ T, epsilonClosure1 g n ⊆ T)
    (hmin : ∀ U, S ⊆ U → (∀ n ∈ U, epsilonClosure1 g n ⊆ U) → T ⊆ U) :
    getEpsilonClosures g S = T := by
  apply Finset.Subset.antisymm
  · exact getEpsilonClosures_subset_of_closed hcl hST
  · exact hmin _ (subset_getEpsilonClosures g S) (getEpsilonClosures_isClosed g S)

theorem getEpsilonClosures_mono {g : Graph} {S T : Finset Nat} (h : S ⊆ T) :
    getEpsilonClosures g S ⊆ getEpsilonClosures g T :=
  getEpsilonClosures_subset_of_closed (getEpsilonClosures_isClosed g T)
    (Finset.Subset.trans h (subset_getEpsilonClosures g T))

theorem getEpsilonClosures_empty (g : Graph) : getEpsilonClosures g ∅ = ∅ :=
  closF_of_closed (by simp [closureStep]) _

theorem getEpsilonClosures_union (g : Graph) (S T : Finset Nat) :
    getEpsilonClosures g (S ∪ T) = getEpsilonClosures g S ∪ getEpsilonClosures g T := by
  apply Finset.Subset.antisymm
  · apply getEpsilonClosures_subset_of_closed
    · intro n hn
      rcases Finset.mem_union.mp hn with h | h
      · exact Finset.Subset.trans (getEpsilonClosures_isClosed g S n h)
          Finset.subset_union_left
      · exact Finset.Subset.trans (getEpsilonClosures_isClosed g T n h)
          Finset.subset_union_right
    · exact Finset.union_subset
        (Finset.Subset.trans (subset_getEpsilonClosures g S) Finset.subset_union_left)
        (Finset.Subset.trans (subset_getEpsilonClosures g T) Finset.subset_union_right)
  · exact Finset.union_subset
      (getEpsilonClosures_mono Finset.subset_union_left)
      (getEpsilonClosures_mono Finset.subset_union_right)

/-- `FA.move(source, input)` for set-valued arguments.  The code first
replaces its working set by the epsilon closure of the sources
(`nodes.update(self.get_epsilon_closures(nodes))`), then walks every
outgoing edge of every node in that set, normalizes the stored weight,
and collects the destinations whose normalized weight equals one of the
input symbols.  The result is returned as-is, with no closure taken. -/
def FA.move (g : Graph) (source : Finset Nat) (inputs : Finset String) : Finset Nat :=
  ((g.edges.filter (fun ed =>
      ed.src ∈ (source ∪ getEpsilonClosures g source) ∧
      ∃ x ∈ inputs, matchesInput ed.w x)).map Edge.dst).toFinset

/-- The same computation, but also returning the final value of the
working set `nodes`.  When the caller passes a `set`-valued `source`,
`nodes` *is* the caller's set (`nodes = source` without a copy), so the
second component is the state of the caller's set after `FA.move`
returns; a bare (non-set) single state is first wrapped in a fresh set,
so such a caller is unaffected. -/
def FA.moveMut (g : Graph) (source : Finset Nat) (inputs : Finset String) :
    Finset Nat × Finset Nat :=
  (FA.move g source inputs, source ∪ getEpsilonClosures g source)

/-- The move function as §4.4 of the spec words it: first compute
`closure(sources)`; then for every state of that closure and every
outgoing transition whose label matches a symbol in `inputs`, add the
transition's destination to the result (and nothing else — in
particular no closure of the result). -/
def moveSpec (g : Graph) (sources : Finset Nat) (inputs : Finset String) : Finset Nat :=
  (getEpsilonClosures g sources).biUnion fun n =>
    ((g.edges.filter (fun ed => ed.src = n ∧ ∃ x ∈ inputs, matchesInput ed.w x)).map
      Edge.dst).toFinset

theorem union_getEpsilonClosures (g : Graph) (S : Finset Nat) :
    S ∪ getEpsilonClosures g S = getEpsilonClosures g S :=
  Finset.union_eq_right.mpr (subset_getEpsilonClosures g S)

/-- The example graph `1 —'a'→ 2 —ε→ 3` used to exhibit that the output
of `move` is not epsilon-closed. -/
def gC5 : Graph := ⟨[⟨1, 2, PyVal.str (pyReprStr "a")⟩, ⟨2, 3, epsV⟩], []⟩


/-- C8: `closure` is idempotent: `closure(closure(S)) == closure(S)` for
every state set `S` of an automaton graph.  (`get_epsilon_closures`
stops exactly when the one-step closures add nothing new, so its result
is closed and a second application returns it unchanged.) -/
theorem C8_closure_idempotent (g : Graph) (S : Finset Nat) :
    getEpsilonClosures g (getEpsilonClosures g S) = getEpsilonClosures g S :=
  closF_of_closed (getEpsilonClosures_closed g S) _

/-- C5: `move(sources, inputs)` first takes the epsilon closure of the
sources and then returns exactly the destinations of transitions leaving
that closure whose label matches some input symbol; the returned set is
not epsilon-closed (witnessed on `gC5`, where `move({1},{"a"}) = {2}`
but the closure of `{2}` is `{2, 3}`). -/
theorem C5_move_closure_contract :
    (∀ (g : Graph) (S : Finset Nat) (I : Finset String), FA.move g S I = moveSpec g S I) ∧
    getEpsilonClosures gC5 (FA.move gC5 {1} {"a"}) ≠ FA.move gC5 {1} {"a"} := by
  constructor
  · intro g S I
    ext y
    simp only [FA.move, moveSpec, union_getEpsilonClosures, List.mem_toFinset,
      List.mem_map, List.mem_filter, Finset.mem_biUnion, decide_eq_true_eq]
    constructor
    · rintro ⟨ed, ⟨hed, hsrc, hm⟩, rfl⟩
      exact ⟨ed.src, hsrc, ed, ⟨hed, rfl, hm⟩, rfl⟩
    · rintro ⟨n, hn, ed, ⟨hed, rfl, hm⟩, rfl⟩
      exact ⟨ed, ⟨hed, hn, hm⟩, rfl⟩
  · decide

/-- C10: when `move` receives a set-valued source, the caller's set is
mutated in place: after the call it holds exactly the epsilon closure of
its original members (the first component below is `move`'s return
value, the second the caller's set after the call). -/
theorem C10_move_mutates_source (g : Graph) (S : Finset Nat) (I : Finset String) :
    (FA.moveMut g S I).2 = getEpsilonClosures g S ∧
    (FA.moveMut g S I).1 = FA.move g S I :=
  ⟨union_getEpsilonClosures g S, rfl⟩

/-- Errors a compilation can raise: `IndexError` from running off the
regex during bracket matching, `ValueError` from a backwards range, and
the `AttributeError`/`KeyError` family raised when a `None` stands where
an NFA or node id is needed.  `fuelOut` marks exhaustion of recursion
fuel; the wrappers supply enough fuel that it is never reached. -/
inductive CompileErr : Type where
  | indexError
  | invalidRange
  | noneType
  | fuelOut
deriving DecidableEq, Repr

/-- Sequencing for counter-threaded fallible computations. -/
def andThen {α β : Type} (x : Except CompileErr (α × Nat))
    (f : α → Nat → Except CompileErr (β × Nat)) : Except CompileErr (β × Nat) :=
  match x with
  | Except.error e => Except.error e
  | Except.ok p => f p.1 p.2

/-- An `NFA` object: optional start/end node ids and the graph.  The
global class counter `NFA.__cni` is threaded explicitly as a `Nat`
(it starts at `1` and node ids are therefore always positive, so Python
truthiness of a node id coincides with being not-`None`). -/
structure Nfa : Type where
  start_node : Option Nat
  end_node : Option Nat
  graph : Graph
deriving DecidableEq, Repr

/-- A freshly constructed `NFA()` object. -/
def Nfa.fresh : Nfa := ⟨none, none, Graph.empty⟩

/-- `NFA.empty()`: two fresh states joined by an epsilon transition. -/
def Nfa.emptyNfa (c : Nat) : Nfa × Nat :=
  (⟨some c, some (c + 1), Graph.empty.addEdge ⟨c, c + 1, epsV⟩⟩, c + 2)

/-- `NFA.concatenate_node(edge_weight)`: on an uninitialized object,
allocate start and end and connect them by one edge whose stored weight
is `repr(edge_weight)`; on an already initialized object do nothing. -/
def Nfa.concatenate_node (self : Nfa) (edge_weight : String) (c : Nat) : Nfa × Nat :=
  if self.start_node = none ∧ self.end_node = none then
    ({ start_node := some c, end_node := some (c + 1),
       graph := self.graph.addEdge ⟨c, c + 1, PyVal.str (pyReprStr edge_weight)⟩ }, c + 2)
  else (self, c)

/-- The loop body of `NFA.add_nodes_in_range`: for each ordinal `k` it
allocates a gate and an inner node and adds
`start —ε→ gate —k→ inner —ε→ end` (the ordinal is stored as a raw
integer weight). -/
def addRangeLoop (s e : Nat) : List Nat → Graph → Nat → Graph × Nat
  | [], g, c => (g, c)
  | k :: ks, g, c =>
      addRangeLoop s e ks
        (((g.addEdge ⟨s, c, epsV⟩).addEdge ⟨c, c + 1, PyVal.int k⟩).addEdge ⟨c + 1, e, epsV⟩)
        (c + 2)

/-- `NFA.add_nodes_in_range(start_char, end_char)`: fresh start and end
nodes and one private branch per ordinal in
`range(ord(start_char), ord(end_char) + 1)`. -/
def Nfa.add_nodes_in_range (self : Nfa) (a b : Char) (c : Nat) : Nfa × Nat :=
  (({ self with
      start_node := some c, end_node := some (c + 1),
      graph := (addRangeLoop c (c + 1) (List.range' a.toNat (b.toNat + 1 - a.toNat))
        self.graph (c + 2)).1 }),
   (addRangeLoop c (c + 1) (List.range' a.toNat (b.toNat + 1 - a.toNat)) self.graph (c + 2)).2)

/-- `NFA.from_character_or_range(regex)`: a 3-character pattern
containing `'-'` builds a range (raising `ValueError` when the start
character is not strictly below the end character), anything else one
literal edge; afterwards, if the end node is still unset it is pointed
at the most recently allocated id. -/
def Nfa.from_character_or_range (self : Nfa) (regex : List Char) (c : Nat) :
    Except CompileErr (Nfa × Nat) :=
  andThen
    (if regex.contains '-' ∧ regex.length = 3 then
      match regex with
      | [a, _, b] =>
          if a < b then Except.ok (self.add_nodes_in_range a b c)
          else Except.error CompileErr.invalidRange
      | _ => Except.error CompileErr.indexError
    else Except.ok (self.concatenate_node ⟨regex⟩ c))
    (fun nfa c2 =>
      if nfa.end_node = none then Except.ok ({ nfa with end_node := some (c2 - 1) }, c2)
      else Except.ok (nfa, c2))

/-- `NFA.concatenate(nfa)`: when `self` is initialized, add an epsilon
edge from `self`'s end to `nfa`'s start, merge the graphs with
`networkx.compose` and take over `nfa`'s end node.  When `self` is the
uninitialized accumulator (`NFA()` with no start or end yet), only
`self.graph` is replaced by `nfa.graph`; start and end stay `None`. -/
def Nfa.concatenate (self nfa : Nfa) : Except CompileErr Nfa :=
  if self.start_node ≠ none ∧ self.end_node ≠ none then
    match self.end_node, nfa.start_node with
    | some se, some ns =>
        Except.ok { self with
          graph := (self.graph.addEdge ⟨se, ns, epsV⟩).compose nfa.graph,
          end_node := nfa.end_node }
    | _, _ => Except.error CompileErr.noneType
  else Except.ok { self with graph := nfa.graph }

/-- `NFA.union(nfa)`: fresh start and end nodes, epsilon edges from the
new start to both old starts and from both old ends to the new end,
then a graph merge. -/
def Nfa.union (self nfa : Nfa) (c : Nat) : Except CompileErr (Nfa × Nat) :=
  match self.start_node, self.end_node, nfa.start_node, nfa.end_node with
  | some ls, some le, some ns, some ne =>
      Except.ok
        ({ self with
           start_node := some c, end_node := some (c + 1),
           graph := (((((self.graph.addEdge ⟨c, ls, epsV⟩).addEdge
             ⟨c, ns, epsV⟩).addEdge ⟨le, c + 1, epsV⟩).addEdge
             ⟨ne, c + 1, epsV⟩)).compose nfa.graph }, c + 2)
  | _, _, _, _ => Except.error CompileErr.noneType

/-- `NFA.kleene_closure()`: loop epsilon from old end to old start,
fresh start/end, entry, exit and bypass epsilon edges. -/
def Nfa.kleene_closure (self : Nfa) (c : Nat) : Except CompileErr (Nfa × Nat) :=
  match self.start_node, self.end_node with
  | some ls, some le =>
      Except.ok
        ({ self with
           start_node := some c, end_node := some (c + 1),
           graph := (((self.graph.addEdge ⟨le, ls, epsV⟩).addEdge
             ⟨c, ls, epsV⟩).addEdge ⟨le, c + 1, epsV⟩).addEdge ⟨c, c + 1, epsV⟩ }, c + 2)
  | _, _ => Except.error CompileErr.noneType

/-- `NFA.plus()`: a single looping epsilon edge from end to start; start
and end nodes unchanged, no bypass. -/
def Nfa.plus (self : Nfa) : Except CompileErr Nfa :=
  match self.start_node, self.end_node with
  | some ls, some le =>
      Except.ok { self with graph := self.graph.addEdge ⟨le, ls, epsV⟩ }
  | _, _ => Except.error CompileErr.noneType

/-- The unit list `re.findall(r'(.-.|.)+?', regex)` produces on the
inputs this compiler feeds it: the non-greedy repetition makes every
match a single unit, and the alternation prefers a 3-character `.-.`
range over a single character.  (That `.` does not match a newline is
irrelevant here and not modelled.) -/
def simpleRegexMatches : List Char → List (List Char)
  | [] => []
  | a :: '-' :: b :: rest => [a, '-', b] :: simpleRegexMatches rest
  | a :: rest => [a] :: simpleRegexMatches rest

/-- The concatenation loop of `NFA.from_simple_regex`. -/
def fsrFold (acc : Nfa) : List (List Char) → Nat → Except CompileErr (Nfa × Nat)
  | [], c => Except.ok (acc, c)
  | m :: rest, c =>
      andThen (Nfa.from_character_or_range Nfa.fresh m c) fun nm c2 =>
        match acc.concatenate nm with
        | Except.error e => Except.error e
        | Except.ok r => fsrFold r rest c2

/-- `NFA.from_simple_regex(regex)`: one fragment per unit, concatenated;
`None` when the pattern finds no unit (an input shape the compiler never
produces). -/
def from_simple_regex (regex : List Char) (c : Nat) :
    Except CompileErr (Option Nfa × Nat) :=
  match simpleRegexMatches regex with
  | [] => Except.ok (none, c)
  | m0 :: rest =>
      andThen (Nfa.from_character_or_range Nfa.fresh m0 c) fun n0 c2 =>
      andThen (fsrFold n0 rest c2) fun nf c3 => Except.ok (some nf, c3)

theorem toList_charToStr (c : Char) : (charToStr c).toList = [c] := rfl

theorem pyEvalStr_pyReprStr (c : Char) :
    pyEvalStr (pyReprStr (charToStr c)) = some (charToStr c) := by
  by_cases h1 : c = '\''
  · subst h1; rfl
  · by_cases h2 : c = '\\'
    · subst h2; rfl
    · unfold pyReprStr
      rw [toList_charToStr]
      have hc : ([c].contains '\'') = false := by
        simp only [List.contains_cons, List.contains_nil, Bool.or_false,
          beq_eq_false_iff_ne, ne_eq]
        exact fun h => h1 h.symm
      rw [if_neg (by rw [hc]; simp)]
      unfold pyEvalStr
      simp only [List.flatMap_cons, List.flatMap_nil, pyEscape, if_neg h2]
      simp [pyUnescape, h2, charToStr]

theorem pyReprStr_ne_eps (c : Char) : pyReprStr (charToStr c) ≠ epsStr := by
  unfold pyReprStr epsStr
  intro h
  have := congrArg (fun s => s.toList.length) h
  rw [toList_charToStr] at this
  by_cases h1 : ([c].contains '\'') = true
  · rw [if_pos h1] at this
    simp [pyEscape] at this
  · rw [if_neg h1] at this
    simp [pyEscape] at this

theorem addRangeLoop_mem {s e : Nat} {ed : Edge} :
    ∀ (ks : List Nat) (g : Graph) (c : Nat),
      ed ∈ (addRangeLoop s e ks g c).1.edges →
      ed ∈ g.edges ∨ ed.w = epsV ∨ ∃ j ∈ ks, ed.w = PyVal.int j := by
  intro ks
  induction ks with
  | nil => intro g c h; exact Or.inl h
  | cons k t ih =>
      intro g c h
      rcases ih _ _ h with h1 | h2 | ⟨j, hj, hw⟩
      · simp only [Graph.addEdge, List.mem_append, List.mem_singleton] at h1
        rcases h1 with ((hg | rfl) | rfl) | rfl
        · exact Or.inl hg
        · exact Or.inr (Or.inl rfl)
        · exact Or.inr (Or.inr ⟨k, by simp, rfl⟩)
        · exact Or.inr (Or.inl rfl)
      · exact Or.inr (Or.inl h2)
      · exact Or.inr (Or.inr ⟨j, List.mem_cons_of_mem _ hj, hw⟩)

theorem matchesInput_eps (x : String) : matchesInput epsV x ↔ x = epsStr := by
  simp [matchesInput, normalizeWeight, epsV, pyStr, eq_comm]

theorem matchesInput_repr (c : Char) (x : String) :
    matchesInput (PyVal.str (pyReprStr (charToStr c))) x ↔ x = charToStr c := by
  simp [matchesInput, normalizeWeight, pyReprStr_ne_eps c, pyEvalStr_pyReprStr c,
    pyStr, eq_comm]

theorem matchesInput_int (n : Nat) (x : String) :
    matchesInput (PyVal.int n) x ↔ x = charToStr (Char.ofNat n) := by
  simp [matchesInput, normalizeWeight, pyStr, eq_comm]

/-- The fragment `NFA.add_nodes_in_range('a', 'b')` builds when the
global counter is `1`. -/
def c1nfa : Nfa := (Nfa.add_nodes_in_range Nfa.fresh 'a' 'b' 1).1

/-- C1 counterexample: transition labels are not kept in a canonical
tagged `Epsilon`/`Literal` form.  `add_nodes_in_range` stores the raw
numeric ordinal (`97`) as the weight of the `'a'` branch of the range
`a-b`, and `move` reinterprets that stored number into the string
`"a"` via `chr` at traversal time; moreover the `Epsilon` label does
match the literal input symbol `'ε'`. -/
theorem C1_counterexample :
    c1nfa.graph.edges[1]? = some ⟨3, 4, PyVal.int 97⟩ ∧
    normalizeWeight (PyVal.int 97) = PyVal.str "a" ∧
    PyVal.int 97 ≠ PyVal.str "a" ∧
    matchesInput epsV (charToStr epsChar) := by decide

/-- C1 (amended): labels are stored as the epsilon marker string, as the
Python `repr` string of the literal character (`concatenate_node`), or
as the raw character ordinal (`add_nodes_in_range`), and `move`
re-normalizes every stored label at traversal time; after normalization
an epsilon label matches exactly the input `'ε'`, a repr-string label
for character `c` matches exactly the input `c`, and an ordinal label
`n` matches exactly the input `chr(n)`. -/
theorem C1_label_semantics (self : Nfa) (s : String) (a b : Char) (cnt n : Nat)
    (c : Char) (x : String)
    (hs : self.start_node = none) (he : self.end_node = none) :
    (Nfa.concatenate_node self s cnt).1.graph.edges =
      self.graph.edges ++ [⟨cnt, cnt + 1, PyVal.str (pyReprStr s)⟩] ∧
    (∀ ed ∈ (Nfa.add_nodes_in_range self a b cnt).1.graph.edges,
       ed ∈ self.graph.edges ∨ ed.w = epsV ∨
       ∃ j, ed.w = PyVal.int j ∧ a.toNat ≤ j ∧ j ≤ b.toNat) ∧
    (matchesInput epsV x ↔ x = epsStr) ∧
    (matchesInput (PyVal.str (pyReprStr (charToStr c))) x ↔ x = charToStr c) ∧
    (matchesInput (PyVal.int n) x ↔ x = charToStr (Char.ofNat n)) := by
  refine ⟨?_, ?_, matchesInput_eps x, matchesInput_repr c x, matchesInput_int n x⟩
  · simp [Nfa.concatenate_node, hs, he, Graph.addEdge]
  · intro ed hed
    rcases addRangeLoop_mem _ _ _ hed with h1 | h2 | ⟨j, hj, hw⟩
    · exact Or.inl h1
    · exact Or.inr (Or.inl h2)
    · refine Or.inr (Or.inr ⟨j, hw, ?_, ?_⟩)
      · exact (List.mem_range'_1.mp hj).1
      · have h1 := (List.mem_range'_1.mp hj).1
        have h2 := (List.mem_range'_1.mp hj).2
        omega

/-- Witness for `C1_label_semantics` at `self = NFA()`, `s = "a"`,
range `'a'`–`'b'`, counter `1`, ordinal `98`, character `'z'`, input
`"q"`. -/
theorem C1_label_semantics_witness :
    (Nfa.concatenate_node Nfa.fresh "a" 1).1.graph.edges =
      Nfa.fresh.graph.edges ++ [⟨1, 2, PyVal.str (pyReprStr "a")⟩] ∧
    (∀ ed ∈ (Nfa.add_nodes_in_range Nfa.fresh 'a' 'b' 1).1.graph.edges,
       ed ∈ Nfa.fresh.graph.edges ∨ ed.w = epsV ∨
       ∃ j, ed.w = PyVal.int j ∧ 'a'.toNat ≤ j ∧ j ≤ 'b'.toNat) ∧
    (matchesInput epsV "q" ↔ "q" = epsStr) ∧
    (matchesInput (PyVal.str (pyReprStr (charToStr 'z'))) "q" ↔ "q" = charToStr 'z') ∧
    (matchesInput (PyVal.int 98) "q" ↔ "q" = charToStr (Char.ofNat 98)) :=
  C1_label_semantics Nfa.fresh "a" 'a' 'b' 1 98 'z' "q" rfl rfl

/-- A literal fragment with start `5` and end `6`, used to exhibit the
behaviour of `concatenate` on an uninitialized left operand. -/
def c3B : Nfa := ⟨some 5, some 6, Graph.empty.addEdge ⟨5, 6, PyVal.str (pyReprStr "b")⟩⟩

/-- C3 counterexample: when the left operand is the uninitialized
accumulator (`NFA()`), `concatenate` copies only the graph of `B`; the
result's start node stays `None` instead of becoming `B`'s start, so the
result is not "simply B". -/
theorem C3_counterexample :
    (Nfa.concatenate ⟨none, none, Graph.empty⟩ c3B).map (fun r => r.start_node) =
      Except.ok none ∧
    c3B.start_node = some 5 := ⟨rfl, rfl⟩

/-- C3 (amended): for initialized `A`, `concatenate(A, B)` adds an
epsilon transition from `A.end` to `B.start`, merges the two graphs and
returns a fragment with start `A.start` and end `B.end`; when `A` is the
uninitialized accumulator placeholder, only `A`'s graph is replaced by
`B`'s graph — the result's start and end nodes remain unset rather than
becoming `B`'s. -/
theorem C3_concatenate (A B : Nfa) (as ae bs be : Nat)
    (hA1 : A.start_node = some as) (hA2 : A.end_node = some ae)
    (hB1 : B.start_node = some bs) (hB2 : B.end_node = some be) :
    Nfa.concatenate A B =
      Except.ok ⟨some as, some be, (A.graph.addEdge ⟨ae, bs, epsV⟩).compose B.graph⟩ ∧
    ∀ g : Graph, Nfa.concatenate ⟨none, none, g⟩ B = Except.ok ⟨none, none, B.graph⟩ := by
  constructor
  · obtain ⟨As, Ae, Ag⟩ := A
    obtain ⟨Bs, Be, Bg⟩ := B
    simp only at hA1 hA2 hB1 hB2
    subst hA1; subst hA2; subst hB1; subst hB2
    simp [Nfa.concatenate]
  · intro g
    simp [Nfa.concatenate]

/-- Witness for `C3_concatenate` at two concrete literal fragments. -/
theorem C3_concatenate_witness :
    Nfa.concatenate ⟨some 1, some 2, Graph.empty.addEdge ⟨1, 2, PyVal.str (pyReprStr "a")⟩⟩ c3B =
      Except.ok ⟨some 1, some 6,
        ((Graph.empty.addEdge ⟨1, 2, PyVal.str (pyReprStr "a")⟩).addEdge
          ⟨2, 5, epsV⟩).compose c3B.graph⟩ ∧
    ∀ g : Graph, Nfa.concatenate ⟨none, none, g⟩ c3B = Except.ok ⟨none, none, c3B.graph⟩ :=
  C3_concatenate ⟨some 1, some 2, Graph.empty.addEdge ⟨1, 2, PyVal.str (pyReprStr "a")⟩⟩
    c3B 1 2 5 6 rfl rfl rfl rfl

/-- Modelled from the spec: `string_to_priority_hash` lives in
`src/helpers.py`, which is not under `src/`.  §4.5 of the spec fixes the
precedence order the hash built from `'(*+&|)'` realizes: `|` (union)
lowest, `&` (explicit concatenation) in between, `*` and `+` (postfix)
highest.  Only these four operators are ever looked up. -/
def priority : Char → Nat
  | '|' => 1
  | '&' => 2
  | '*' => 3
  | '+' => 3
  | _ => 0

/-- Modelled from the spec: the `Stack` class lives in `src/helpers.py`,
which is not under `src/`.  `from_regex` guards its pop loop with
`while operator and ...`, so `pop` on an empty stack returns the falsy
`None`.  On the operand stack a pop-on-empty `None` and a stored `None`
fragment behave identically at every use site, so both are flattened
into the `Option`. -/
def popOpt (st : List (Option Nfa)) : Option Nfa × List (Option Nfa) :=
  match st with
  | [] => (none, [])
  | x :: rest => (x, rest)

/-- `NFA.evaluate_operation(operator, operands)`: `&` and `|` pop two
fragments (the second operand first), build the concatenation resp.
union and push the result; `*` and `+` pop one fragment and push its
kleene closure resp. plus; any other character is ignored.  Operating on
a `None` operand raises (`AttributeError`), modelled as `noneType`. -/
def evaluate_operation (op : Char) (st : List (Option Nfa)) (c : Nat) :
    Except CompileErr (List (Option Nfa) × Nat) :=
  if op = '&' then
    match (popOpt (popOpt st).2).1, (popOpt st).1 with
    | some f, some s =>
        match f.concatenate s with
        | Except.error e => Except.error e
        | Except.ok r => Except.ok (some r :: (popOpt (popOpt st).2).2, c)
    | _, _ => Except.error CompileErr.noneType
  else if op = '|' then
    match (popOpt (popOpt st).2).1, (popOpt st).1 with
    | some f, some s =>
        match f.union s c with
        | Except.error e => Except.error e
        | Except.ok rc => Except.ok (some rc.1 :: (popOpt (popOpt st).2).2, rc.2)
    | _, _ => Except.error CompileErr.noneType
  else if op = '*' then
    match (popOpt st).1 with
    | some n =>
        match n.kleene_closure c with
        | Except.error e => Except.error e
        | Except.ok rc => Except.ok (some rc.1 :: (popOpt st).2, rc.2)
    | none => Except.error CompileErr.noneType
  else if op = '+' then
    match (popOpt st).1 with
    | some n =>
        match n.plus with
        | Except.error e => Except.error e
        | Except.ok r => Except.ok (some r :: (popOpt st).2, c)
    | none => Except.error CompileErr.noneType
  else Except.ok (st, c)

/-- The inner pop-and-evaluate loop of `from_regex`:
`operator = operators.pop(); while operator and priority[cur] <=
priority[operator]: evaluate; operator = operators.pop()`.  Note that
when the loop stops because the popped operator has *lower* priority
than the current one, that operator has already been popped and is
neither evaluated nor pushed back — it is silently dropped. -/
def drainWhile (cur : Char) : List Char → List (Option Nfa) → Nat →
    Except CompileErr ((List Char × List (Option Nfa)) × Nat)
  | [], st, c => Except.ok (([], st), c)
  | op :: rest, st, c =>
      if priority cur ≤ priority op then
        andThen (evaluate_operation op st c) fun st2 c2 => drainWhile cur rest st2 c2
      else Except.ok ((rest, st), c)

/-- The end-of-input drain of `from_regex`: pop and evaluate every
remaining operator. -/
def drainAll : List Char → List (Option Nfa) → Nat →
    Except CompileErr (List (Option Nfa) × Nat)
  | [], st, c => Except.ok (st, c)
  | op :: rest, st, c =>
      andThen (evaluate_operation op st c) fun st2 c2 => drainAll rest st2 c2

/-- The bracket-depth scan of `from_regex`: starting at `j` with the
given depth, step through the string adjusting the depth at `(` and `)`
and return the index of the parenthesis that brings the depth to zero;
`none` models the `IndexError` of running off the end (the fuel the
callers pass always exceeds the remaining length). -/
def findClose (chars : List Char) : Nat → Nat → Nat → Option Nat
  | 0, _, _ => none
  | fuel + 1, j, depth =>
      match chars[j]? with
      | none => none
      | some cj =>
          if (if cj = ')' then depth - 1 else if cj = '(' then depth + 1 else depth) = 0
          then some j
          else findClose chars fuel (j + 1)
            (if cj = ')' then depth - 1 else if cj = '(' then depth + 1 else depth)

/-- The left-to-right scan loop of `NFA.from_regex` over `chars`,
parameterized by the recursive compiler used for parenthesized
subexpressions.  State: position `i`, operand stack, operator stack and
the global node counter.  Fuel decreases every iteration; the position
advances by at least one each time, so `chars.length + 1` units of fuel
always finish the scan. -/
def scanLoop (rec : List Char → Nat → Except CompileErr (Option Nfa × Nat))
    (chars : List Char) :
    Nat → Nat → List (Option Nfa) → List Char → Nat →
    Except CompileErr ((List (Option Nfa) × List Char) × Nat)
  | 0, _, _, _, _ => Except.error CompileErr.fuelOut
  | fuel + 1, i, st, ops, c =>
      if i < chars.length then
        match chars[i]? with
        | none => Except.error CompileErr.indexError
        | some cc =>
            if cc = '(' then
              match findClose chars (chars.length + 1) (i + 1) 1 with
              | none => Except.error CompileErr.indexError
              | some j =>
                  andThen (rec ((chars.drop (i + 1)).take (j - (i + 1))) c) fun r c2 =>
                    scanLoop rec chars fuel (j + 1) (r :: st) ops c2
            else if i < chars.length - 1 ∧ cc = '\\' then
              match chars[i + 1]? with
              | none => Except.error CompileErr.indexError
              | some nx =>
                  if nx = 'L' then
                    scanLoop rec chars fuel (i + 2) (some (Nfa.emptyNfa c).1 :: st) ops
                      (Nfa.emptyNfa c).2
                  else
                    andThen (from_simple_regex [nx] c) fun r c2 =>
                      scanLoop rec chars fuel (i + 2) (r :: st) ops c2
            else if cc ∉ ['*', '&', '|', '+'] then
              if i < chars.length - 2 ∧ chars[i + 1]? = some '-' then
                andThen (from_simple_regex ((chars.drop i).take 3) c) fun r c2 =>
                  scanLoop rec chars fuel (i + 3) (r :: st) ops c2
              else
                andThen (from_simple_regex [cc] c) fun r c2 =>
                  scanLoop rec chars fuel (i + 1) (r :: st) ops c2
            else
              match ops with
              | [] => scanLoop rec chars fuel (i + 1) st [cc] c
              | top :: _ =>
                  if priority top ≤ priority cc then
                    scanLoop rec chars fuel (i + 1) st (cc :: ops) c
                  else
                    andThen (drainWhile cc ops st c) fun p c2 =>
                      scanLoop rec chars fuel (i + 1) p.2 (cc :: p.1) c2
      else Except.ok ((st, ops), c)

/-- `NFA.from_regex(regex)` with explicit recursion fuel for the nested
compilation of parenthesized subexpressions (each nesting level works on
a strictly shorter substring, so `length + 1` units always suffice):
scan, drain the operator stack, then return `operands.pop()` — which is
`None` when the operand stack ended up empty. -/
def fromRegexF : Nat → List Char → Nat → Except CompileErr (Option Nfa × Nat)
  | 0, _, _ => Except.error CompileErr.fuelOut
  | fuel + 1, chars, c =>
      andThen (scanLoop (fromRegexF fuel) chars (chars.length + 1) 0 [] [] c) fun p c2 =>
      andThen (drainAll p.2 p.1 c2) fun st c3 =>
      Except.ok ((popOpt st).1, c3)

/-- `NFA.from_regex` on a string. -/
def from_regex (s : String) (c : Nat) : Except CompileErr (Option Nfa × Nat) :=
  fromRegexF (s.length + 1) s.data c

/-- The state of the two stacks when the scan of `from_regex` reaches
the end of the input (before the final drain). -/
def scanPhase (s : String) (c : Nat) :
    Except CompileErr ((List (Option Nfa) × List Char) × Nat) :=
  scanLoop (fromRegexF s.length) s.data (s.data.length + 1) 0 [] [] c

/-- The operand stack of `from_regex` after the final drain of the
operator stack. -/
def drainedStack (s : String) (c : Nat) :
    Except CompileErr (List (Option Nfa) × Nat) :=
  andThen (scanPhase s c) fun p c2 => drainAll p.2 p.1 c2

/-- C2 (code bug): on input `"a|b*&c"` (the preprocessed form of
`a|b*c`), when the scan reaches `'&'` with operator stack `['*', '|']`
it pops `'*'` and evaluates it, then pops `'|'`; since
`priority '&' > priority '|'` the loop stops and `'|'` — already
popped — is neither evaluated nor pushed back.  After the scan the
operator stack holds only `['&']`, and after the final drain two
operand fragments remain: the union was never performed and the `a`
fragment is silently dropped. -/
theorem C2_operator_discarded :
    (scanPhase "a|b*&c" 1).map (fun p => p.1.2) = Except.ok ['&'] ∧
    (drainedStack "a|b*&c" 1).map (fun p => p.1.length) = Except.ok 2 := ⟨rfl, rfl⟩

/-- C4 counterexample: on input `"ab"` the final operand stack holds two
fragments, yet compilation succeeds (returning the top fragment) instead
of failing with `MalformedOperatorSequence`. -/
theorem C4_counterexample :
    (from_regex "ab" 1).map (fun p => p.1.isSome) = Except.ok true ∧
    (drainedStack "ab" 1).map (fun p => p.1.length) = Except.ok 2 := ⟨rfl, rfl⟩

/-- C4 (amended): after the scan and the final drain of the operator
stack, `from_regex` performs no arity check at all: it unconditionally
returns `operands.pop()` — the top of the final operand stack when one
exists (any surplus fragments are silently discarded), and `None` when
the stack is empty.  No `MalformedOperatorSequence` failure exists. -/
theorem C4_final_pop (s : String) (c : Nat) (st : List (Option Nfa)) (c2 : Nat)
    (h : drainedStack s c = Except.ok (st, c2)) :
    from_regex s c = Except.ok ((popOpt st).1, c2) := by
  unfold drainedStack scanPhase at h
  unfold from_regex
  simp only [fromRegexF]
  unfold andThen at h ⊢
  cases hs : scanLoop (fromRegexF s.length) s.data (s.data.length + 1) 0 [] [] c with
  | error e => rw [hs] at h; cases h
  | ok p =>
      rw [hs] at h
      obtain ⟨⟨st0, ops0⟩, cm⟩ := p
      dsimp only at h ⊢
      cases hd : drainAll ops0 st0 cm with
      | error e => rw [hd] at h; cases h
      | ok q =>
          rw [hd] at h
          obtain ⟨st1, c1⟩ := q
          cases h
          rfl

/-- Witness for `C4_final_pop` at the concrete input `"xy"`, whose final
operand stack holds the two literal fragments for `x` and `y`. -/
theorem C4_final_pop_witness :
    from_regex "xy" 1 =
      Except.ok ((popOpt
        [some ⟨some 3, some 4, ⟨[⟨3, 4, PyVal.str "'y'"⟩], []⟩⟩,
         some ⟨some 1, some 2, ⟨[⟨1, 2, PyVal.str "'x'"⟩], []⟩⟩]).1, 5) :=
  C4_final_pop "xy" 1
    [some ⟨some 3, some 4, ⟨[⟨3, 4, PyVal.str "'y'"⟩], []⟩⟩,
     some ⟨some 1, some 2, ⟨[⟨1, 2, PyVal.str "'x'"⟩], []⟩⟩] 5 rfl

/-- A token of the grammar (the `GrammarToken` class of
`src/grammar_token.py`, which only carries these two fields): a name and
a regex. -/
structure GrammarToken : Type where
  name : String
  regex : String
deriving DecidableEq, Repr

/-- Modelled from the spec: `add_concatenation_operator_to_regex` lives
in `src/helpers.py`, which is not under `src/`.  §4.5 of the spec says
implicit concatenation is "inserted as an explicit operator during
preprocessing so one operator-precedence machine handles it uniformly";
the explicit operator is `'&'`.  `'&'` is inserted between two adjacent
characters when the left one can end an operand (not an opening bracket,
a binary operator, an escape lead-in or a range dash) and the right one
can start an operand (not a closing bracket, postfix or binary operator,
or a range dash). -/
def acEnd (c : Char) : Bool := ¬(c = '|' ∨ c = '&' ∨ c = '(' ∨ c = '\\' ∨ c = '-')

/-- Right-hand side of the concatenation-insertion test; see `acEnd`. -/
def acStart (c : Char) : Bool := ¬(c = '|' ∨ c = '&' ∨ c = '*' ∨ c = '+' ∨ c = ')' ∨ c = '-')

/-- The character-level insertion pass; see `acEnd`. -/
def acInsert : List Char → List Char
  | [] => []
  | [c] => [c]
  | c1 :: c2 :: rest =>
      if acEnd c1 && acStart c2 then c1 :: '&' :: acInsert (c2 :: rest)
      else c1 :: acInsert (c2 :: rest)

/-- See `acEnd`: the preprocessing applied to every token regex. -/
def add_concatenation_operator_to_regex (s : String) : String := ⟨acInsert s.data⟩

/-- Errors of the multi-token entry point: the explicit
`ValueError("Tokens list can't be empty")` or a wrapped compile-phase
error. -/
inductive TokErr : Type where
  | emptyTokenSet
  | inner : CompileErr → TokErr
deriving DecidableEq, Repr

/-- Lift a compile-phase result into the token layer. -/
def mapInner {α : Type} : Except CompileErr α → Except TokErr α
  | Except.error e => Except.error (TokErr.inner e)
  | Except.ok a => Except.ok a

/-- The loop of `NFA.from_tokens` over the tokens after the first:
compile the token's (preprocessed) regex, tag the end state with the
token name, and union into the accumulator.  A `None` compile result or
a missing end node makes the Python code fault on `None`. -/
def ftLoop (nfa : Nfa) : List GrammarToken → Nat → Except CompileErr (Nfa × Nat)
  | [], c => Except.ok (nfa, c)
  | t :: rest, c =>
      andThen (from_regex (add_concatenation_operator_to_regex t.regex) c) fun r c2 =>
        match r with
        | none => Except.error CompileErr.noneType
        | some tn =>
            match tn.end_node with
            | none => Except.error CompileErr.noneType
            | some te =>
                andThen (nfa.union { tn with graph := tn.graph.setAcc te t.name } c2)
                  fun u c3 => ftLoop u rest c3

/-- `NFA.from_tokens(tokens)`: raises the empty-token-set `ValueError`
on an empty list; otherwise compiles the first token, tags its end state
with the token name, and folds the remaining tokens in with `union`. -/
def from_tokens (tokens : List GrammarToken) (c : Nat) : Except TokErr (Nfa × Nat) :=
  match tokens with
  | [] => Except.error TokErr.emptyTokenSet
  | t :: rest =>
      mapInner
        (andThen (from_regex (add_concatenation_operator_to_regex t.regex) c) fun r c2 =>
          match r with
          | none => Except.error CompileErr.noneType
          | some n0 =>
              match n0.end_node with
              | none => Except.error CompileErr.noneType
              | some e0 => ftLoop { n0 with graph := n0.graph.setAcc e0 t.name } rest c2)

/-- `NFA.get_token_name_from_acceptance_node(node_index)`. -/
def get_token_name_from_acceptance_node (nfa : Nfa) (n : Nat) : Option String :=
  nfa.graph.lookupAcc n

theorem mapInner_ne_ets {α : Type} (x : Except CompileErr α) :
    mapInner x ≠ Except.error TokErr.emptyTokenSet := by
  cases x <;> simp [mapInner]

/-- C9: the multi-token compile raises `EmptyTokenSet` (the
`ValueError` for an empty token list) exactly on the empty list: it
returns that error and no automaton for `[]`, and never returns that
error for a non-empty token list. -/
theorem C9_empty_token_set (c : Nat) (ts : List GrammarToken) (h : ts ≠ []) :
    from_tokens [] c = Except.error TokErr.emptyTokenSet ∧
    from_tokens ts c ≠ Except.error TokErr.emptyTokenSet := by
  refine ⟨rfl, ?_⟩
  match ts, h with
  | t :: rest, _ => exact mapInner_ne_ets _

/-- Witness for `C9_empty_token_set` at the one-token list
`[("A", "a")]`. -/
theorem C9_empty_token_set_witness :
    from_tokens [] 1 = Except.error TokErr.emptyTokenSet ∧
    from_tokens [⟨"A", "a"⟩] 1 ≠ Except.error TokErr.emptyTokenSet :=
  C9_empty_token_set 1 [⟨"A", "a"⟩] (by simp)

/-- The compile-phase invariant behind C7: a fragment produced by
`from_regex` carries no acceptance attributes, and its end node (when
set) lies in the id window `[c0, c1)` of the ids allocated so far. -/
def FragInv (c0 c1 : Nat) (nfa : Nfa) : Prop :=
  nfa.graph.acc = [] ∧ ∀ e, nfa.end_node = some e → c0 ≤ e ∧ e < c1

/-- `FragInv` for every fragment on the operand stack. -/
def StackInv (c0 c1 : Nat) (st : List (Option Nfa)) : Prop :=
  ∀ x ∈ st, ∀ nfa, x = some nfa → FragInv c0 c1 nfa

theorem FragInv.widen {c0 c1 c0' c1' : Nat} {nfa : Nfa} (h : FragInv c0 c1 nfa)
    (h0 : c0' ≤ c0) (h1 : c1 ≤ c1') : FragInv c0' c1' nfa := by
  obtain ⟨ha, he⟩ := h
  exact ⟨ha, fun e hee =>
    ⟨le_trans h0 (he e hee).1, lt_of_lt_of_le (he e hee).2 h1⟩⟩

theorem StackInv.widenStack {c0 c1 c0' c1' : Nat} {st : List (Option Nfa)}
    (h : StackInv c0 c1 st) (h0 : c0' ≤ c0) (h1 : c1 ≤ c1') : StackInv c0' c1' st :=
  fun x hx nfa hs => (h x hx nfa hs).widen h0 h1

theorem StackInv.cons {c0 c1 : Nat} {st : List (Option Nfa)} {x : Option Nfa}
    (hx : ∀ nfa, x = some nfa → FragInv c0 c1 nfa) (h : StackInv c0 c1 st) :
    StackInv c0 c1 (x :: st) := by
  intro y hy nfa hs
  rcases List.mem_cons.mp hy with rfl | hy2
  · exact hx nfa hs
  · exact h y hy2 nfa hs

theorem StackInv.nil {c0 c1 : Nat} : StackInv c0 c1 [] := by
  intro x hx
  cases hx

theorem addRangeLoop_acc (s e : Nat) :
    ∀ (ks : List Nat) (g : Graph) (c : Nat), (addRangeLoop s e ks g c).1.acc = g.acc := by
  intro ks
  induction ks with
  | nil => intro g c; rfl
  | cons k t ih => intro g c; simp [addRangeLoop, ih, Graph.addEdge]

theorem addRangeLoop_counter (s e : Nat) :
    ∀ (ks : List Nat) (g : Graph) (c : Nat),
      (addRangeLoop s e ks g c).2 = c + 2 * ks.length := by
  intro ks
  induction ks with
  | nil => intro g c; simp [addRangeLoop]
  | cons k t ih => intro g c; simp [addRangeLoop, ih]; omega

theorem add_nodes_in_range_parts (self : Nfa) (a b : Char) (c : Nat) :
    (Nfa.add_nodes_in_range self a b c).1.end_node = some (c + 1) ∧
    (Nfa.add_nodes_in_range self a b c).1.start_node = some c ∧
    (Nfa.add_nodes_in_range self a b c).1.graph.acc = self.graph.acc ∧
    c + 2 ≤ (Nfa.add_nodes_in_range self a b c).2 := by
  refine ⟨rfl, rfl, ?_, ?_⟩
  · simp only [Nfa.add_nodes_in_range]
    exact addRangeLoop_acc _ _ _ _ _
  · simp only [Nfa.add_nodes_in_range]
    rw [addRangeLoop_counter]
    omega

theorem concatenate_node_fresh_eq (s : String) (c : Nat) :
    Nfa.concatenate_node Nfa.fresh s c =
      (⟨some c, some (c + 1),
        Graph.empty.addEdge ⟨c, c + 1, PyVal.str (pyReprStr s)⟩⟩, c + 2) := rfl

theorem from_character_or_range_fresh_spec {m : List Char} {c : Nat} {nfa : Nfa}
    {c' : Nat}
    (h : Nfa.from_character_or_range Nfa.fresh m c = Except.ok (nfa, c')) :
    c ≤ c' ∧ FragInv c c' nfa := by
  unfold Nfa.from_character_or_range andThen at h
  split at h
  · cases h
  next p heq =>
    dsimp only at h
    split at heq
    · split at heq
      case _ =>
        rename_i aa mm bb hcnd
        split at heq
        · injection heq with hp
          subst hp
          have hparts := add_nodes_in_range_parts Nfa.fresh aa bb c
          rw [hparts.1] at h
          rw [if_neg (fun hcon => Option.noConfusion hcon)] at h
          injection h with h2
          have h3 : (Nfa.fresh.add_nodes_in_range aa bb c).1 = nfa :=
            congrArg Prod.fst h2
          have h4 : (Nfa.fresh.add_nodes_in_range aa bb c).2 = c' :=
            congrArg Prod.snd h2
          subst h3
          subst h4
          have hcnt := hparts.2.2.2
          refine ⟨by omega, hparts.2.2.1.trans rfl, ?_⟩
          intro e he
          rw [hparts.1] at he
          injection he with he2
          omega
        · cases heq
      case _ => cases heq
    · rw [concatenate_node_fresh_eq] at heq
      injection heq with hp
      subst hp
      dsimp only at h
      rw [if_neg (fun hcon => Option.noConfusion hcon)] at h
      injection h with h2
      have h3 := congrArg Prod.fst h2
      have h4 := congrArg Prod.snd h2
      dsimp only at h3 h4
      subst h3
      subst h4
      refine ⟨by omega, rfl, ?_⟩
      intro e he
      injection he with he2
      omega

theorem popOpt_fst {st : List (Option Nfa)} {nfa : Nfa}
    (h : (popOpt st).1 = some nfa) : some nfa ∈ st := by
  cases st with
  | nil => cases h
  | cons x r => rw [show (popOpt (x :: r)).1 = x from rfl] at h; exact h ▸ List.mem_cons_self x r

theorem popOpt_snd_subset {st : List (Option Nfa)} :
    ∀ x ∈ (popOpt st).2, x ∈ st := by
  cases st with
  | nil => intro x hx; cases hx
  | cons y r => intro x hx; exact List.mem_cons_of_mem y hx

theorem concatenate_fraginv {A B : Nfa} {c0 c1 : Nat} {r : Nfa}
    (hA : FragInv c0 c1 A) (hB : FragInv c0 c1 B)
    (h : A.concatenate B = Except.ok r) : FragInv c0 c1 r := by
  unfold Nfa.concatenate at h
  split at h
  · split at h
    next se ns =>
      injection h with h2
      subst h2
      constructor
      · simp [Graph.compose, Graph.addEdge, hA.1, hB.1]
      · intro e he
        exact hB.2 e he
    next => cases h
  · injection h with h2
    subst h2
    exact ⟨hB.1, fun e he => hA.2 e he⟩

theorem union_parts {A B : Nfa} {c : Nat} {r : Nfa} {c' : Nat}
    (h : A.union B c = Except.ok (r, c')) :
    c' = c + 2 ∧ r.graph.acc = B.graph.acc ++ A.graph.acc ∧
    r.end_node = some (c + 1) ∧ r.start_node = some c := by
  unfold Nfa.union at h
  split at h
  · injection h with h2
    have h3 := congrArg Prod.fst h2
    have h4 := congrArg Prod.snd h2
    dsimp only at h3 h4
    subst h3
    subst h4
    exact ⟨rfl, by simp [Graph.compose, Graph.addEdge], rfl, rfl⟩
  · cases h

theorem kleene_parts {A : Nfa} {c : Nat} {r : Nfa} {c' : Nat}
    (h : A.kleene_closure c = Except.ok (r, c')) :
    c' = c + 2 ∧ r.graph.acc = A.graph.acc ∧
    r.end_node = some (c + 1) ∧ r.start_node = some c := by
  unfold Nfa.kleene_closure at h
  split at h
  · injection h with h2
    have h3 := congrArg Prod.fst h2
    have h4 := congrArg Prod.snd h2
    dsimp only at h3 h4
    subst h3
    subst h4
    exact ⟨rfl, by simp [Graph.addEdge], rfl, rfl⟩
  · cases h

theorem plus_parts {A : Nfa} {r : Nfa} (h : A.plus = Except.ok r) :
    r.graph.acc = A.graph.acc ∧ r.end_node = A.end_node := by
  unfold Nfa.plus at h
  split at h
  · injection h with h2
    subst h2
    exact ⟨by simp [Graph.addEdge], rfl⟩
  · cases h

theorem evaluate_operation_spec {op : Char} {st : List (Option Nfa)} {c : Nat}
    {st' : List (Option Nfa)} {c' : Nat} {c0 : Nat}
    (hc : c0 ≤ c) (hinv : StackInv c0 c st)
    (h : evaluate_operation op st c = Except.ok (st', c')) :
    c ≤ c' ∧ StackInv c0 c' st' := by
  unfold evaluate_operation at h
  split at h
  · -- '&'
    split at h
    next f s hf hs =>
      split at h
      · cases h
      next r heq =>
        injection h with h2
        have h3 := congrArg Prod.fst h2
        have h4 := congrArg Prod.snd h2
        dsimp only at h3 h4
        subst h3
        subst h4
        refine ⟨le_refl c, StackInv.cons ?_ ?_⟩
        · intro nfa hn
          injection hn with hn2
          subst hn2
          exact concatenate_fraginv
            (hinv _ (popOpt_snd_subset _ (popOpt_fst hf)) f rfl)
            (hinv _ (popOpt_fst hs) s rfl) heq
        · intro x hx nfa hxs
          exact hinv x (popOpt_snd_subset _ (popOpt_snd_subset _ hx)) nfa hxs
    next => cases h
  · split at h
    · -- '|'
      split at h
      next f s hf hs =>
        split at h
        · cases h
        next rc heq =>
          injection h with h2
          have h3 := congrArg Prod.fst h2
          have h4 := congrArg Prod.snd h2
          dsimp only at h3 h4
          subst h3
          subst h4
          obtain ⟨hcc, hacc, hend, _⟩ :=
            union_parts (show f.union s c = Except.ok (rc.1, rc.2) by rw [heq])
          refine ⟨by omega, StackInv.cons ?_ ?_⟩
          · intro nfa hn
            injection hn with hn2
            subst hn2
            constructor
            · rw [hacc, (hinv _ (popOpt_snd_subset _ (popOpt_fst hf)) f rfl).1,
                (hinv _ (popOpt_fst hs) s rfl).1]
              rfl
            · intro e he
              rw [hend] at he
              injection he with he2
              omega
          · intro x hx nfa hxs
            exact (hinv x (popOpt_snd_subset _ (popOpt_snd_subset _ hx)) nfa hxs).widen
              (le_refl _) (by omega)
      next => cases h
    · split at h
      · -- '*'
        split at h
        next n hn =>
          split at h
          · cases h
          next rc heq =>
            injection h with h2
            have h3 := congrArg Prod.fst h2
            have h4 := congrArg Prod.snd h2
            dsimp only at h3 h4
            subst h3
            subst h4
            obtain ⟨hcc, hacc, hend, _⟩ :=
              kleene_parts (show n.kleene_closure c = Except.ok (rc.1, rc.2) by rw [heq])
            refine ⟨by omega, StackInv.cons ?_ ?_⟩
            · intro nfa hns
              injection hns with hn2
              subst hn2
              constructor
              · rw [hacc, (hinv _ (popOpt_fst hn) n rfl).1]
              · intro e he
                rw [hend] at he
                injection he with he2
                omega
            · intro x hx nfa hxs
              exact (hinv x (popOpt_snd_subset _ hx) nfa hxs).widen (le_refl _) (by omega)
        next => cases h
      · split at h
        · -- '+'
          split at h
          next n hn =>
            split at h
            · cases h
            next r heq =>
              injection h with h2
              have h3 := congrArg Prod.fst h2
              have h4 := congrArg Prod.snd h2
              dsimp only at h3 h4
              subst h3
              subst h4
              obtain ⟨hacc, hend⟩ := plus_parts heq
              refine ⟨le_refl c, StackInv.cons ?_ ?_⟩
              · intro nfa hns
                injection hns with hn2
                subst hn2
                constructor
                · rw [hacc, (hinv _ (popOpt_fst hn) n rfl).1]
                · intro e he
                  rw [hend] at he
                  exact (hinv _ (popOpt_fst hn) n rfl).2 e he
              · intro x hx nfa hxs
                exact hinv x (popOpt_snd_subset _ hx) nfa hxs
          next => cases h
        · -- other operators: no-op
          injection h with h2
          have h3 := congrArg Prod.fst h2
          have h4 := congrArg Prod.snd h2
          dsimp only at h3 h4
          subst h3
          subst h4
          exact ⟨le_refl c, hinv⟩

theorem fsrFold_spec {c0 : Nat} :
    ∀ (ms : List (List Char)) (acc : Nfa) (c : Nat) (r : Nfa) (c' : Nat),
      c0 ≤ c → FragInv c0 c acc →
      fsrFold acc ms c = Except.ok (r, c') →
      c ≤ c' ∧ FragInv c0 c' r := by
  intro ms
  induction ms with
  | nil =>
      intro acc c r c' hc hacc h
      injection h with h2
      have h3 := congrArg Prod.fst h2
      have h4 := congrArg Prod.snd h2
      dsimp only at h3 h4
      subst h3
      subst h4
      exact ⟨le_refl c, hacc⟩
  | cons m t ih =>
      intro acc c r c' hc hacc h
      unfold fsrFold andThen at h
      split at h
      · cases h
      next p heq =>
        dsimp only at h
        split at h
        · cases h
        next r2 heq2 =>
          have hm := from_character_or_range_fresh_spec
            (show Nfa.from_character_or_range Nfa.fresh m c = Except.ok (p.1, p.2) by
              rw [heq])
          have hr2 : FragInv c0 p.2 r2 :=
            concatenate_fraginv (hacc.widen (le_refl _) hm.1)
              (hm.2.widen hc (le_refl _)) heq2
          have := ih r2 p.2 r c' (le_trans hc hm.1) hr2 h
          exact ⟨le_trans hm.1 this.1, this.2⟩

theorem from_simple_regex_spec {m : List Char} {c : Nat} {r : Option Nfa} {c' : Nat}
    (h : from_simple_regex m c = Except.ok (r, c')) :
    c ≤ c' ∧ ∀ nfa, r = some nfa → FragInv c c' nfa := by
  unfold from_simple_regex at h
  split at h
  · injection h with h2
    have h3 := congrArg Prod.fst h2
    have h4 := congrArg Prod.snd h2
    dsimp only at h3 h4
    subst h3
    subst h4
    exact ⟨le_refl c, fun nfa hn => by cases hn⟩
  next mh mt hsm =>
    unfold andThen at h
    split at h
    · cases h
    next p heq =>
      dsimp only at h
      split at h
      · cases h
      next q heq2 =>
        injection h with h2
        have h3 := congrArg Prod.fst h2
        have h4 := congrArg Prod.snd h2
        dsimp only at h3 h4
        subst h3
        subst h4
        have hm := from_character_or_range_fresh_spec
          (show Nfa.from_character_or_range Nfa.fresh mh c = Except.ok (p.1, p.2) by
            rw [heq])
        have hf := fsrFold_spec mt p.1 p.2 q.1 q.2 hm.1 hm.2
          (show fsrFold p.1 mt p.2 = Except.ok (q.1, q.2) by rw [heq2])
        refine ⟨le_trans hm.1 hf.1, ?_⟩
        intro nfa hn
        injection hn with hn2
        subst hn2
        exact hf.2

theorem drainWhile_spec {cur : Char} {c0 : Nat} :
    ∀ (ops : List Char) (st : List (Option Nfa)) (c : Nat)
      (res : (List Char × List (Option Nfa)) × Nat),
      c0 ≤ c → StackInv c0 c st →
      drainWhile cur ops st c = Except.ok res →
      c ≤ res.2 ∧ StackInv c0 res.2 res.1.2 := by
  intro ops
  induction ops with
  | nil =>
      intro st c res hc hinv h
      injection h with h2
      subst h2
      exact ⟨le_refl c, hinv⟩
  | cons op rest ih =>
      intro st c res hc hinv h
      unfold drainWhile at h
      split at h
      · unfold andThen at h
        split at h
        · cases h
        next p heq =>
          dsimp only at h
          have he := evaluate_operation_spec hc hinv
            (show evaluate_operation op st c = Except.ok (p.1, p.2) by rw [heq])
          have := ih p.1 p.2 res (le_trans hc he.1) he.2 h
          exact ⟨le_trans he.1 this.1, this.2⟩
      · injection h with h2
        subst h2
        exact ⟨le_refl c, hinv⟩

theorem drainAll_spec {c0 : Nat} :
    ∀ (ops : List Char) (st : List (Option Nfa)) (c : Nat)
      (res : List (Option Nfa) × Nat),
      c0 ≤ c → StackInv c0 c st →
      drainAll ops st c = Except.ok res →
      c ≤ res.2 ∧ StackInv c0 res.2 res.1 := by
  intro ops
  induction ops with
  | nil =>
      intro st c res hc hinv h
      injection h with h2
      subst h2
      exact ⟨le_refl c, hinv⟩
  | cons op rest ih =>
      intro st c res hc hinv h
      unfold drainAll andThen at h
      split at h
      · cases h
      next p heq =>
        dsimp only at h
        have he := evaluate_operation_spec hc hinv
          (show evaluate_operation op st c = Except.ok (p.1, p.2) by rw [heq])
        have := ih p.1 p.2 res (le_trans hc he.1) he.2 h
        exact ⟨le_trans he.1 this.1, this.2⟩

theorem scanLoop_spec {rec : List Char → Nat → Except CompileErr (Option Nfa × Nat)}
    (hrec : ∀ sub cc rr cc2, rec sub cc = Except.ok (rr, cc2) →
      cc ≤ cc2 ∧ ∀ nfa, rr = some nfa → FragInv cc cc2 nfa)
    (chars : List Char) {c0 : Nat} :
    ∀ (fuel i : Nat) (st : List (Option Nfa)) (ops : List Char) (c : Nat)
      (res : (List (Option Nfa) × List Char) × Nat),
      c0 ≤ c → StackInv c0 c st →
      scanLoop rec chars fuel i st ops c = Except.ok res →
      c ≤ res.2 ∧ StackInv c0 res.2 res.1.1 := by
  intro fuel
  induction fuel with
  | zero => intro i st ops c res hc hinv h; cases h
  | succ n ih =>
      intro i st ops c res hc hinv h
      unfold scanLoop at h
      split at h
      case isFalse =>
        injection h with h2
        subst h2
        exact ⟨le_refl c, hinv⟩
      case isTrue hi =>
        split at h
        · cases h
        next cc hcc =>
          split at h
          · -- '('
            split at h
            · cases h
            next j hj =>
              unfold andThen at h
              split at h
              · cases h
              next p heqr =>
                dsimp only at h
                have hr := hrec _ _ p.1 p.2
                  (show rec ((chars.drop (i + 1)).take (j - (i + 1))) c =
                    Except.ok (p.1, p.2) by rw [heqr])
                have := ih (j + 1) (p.1 :: st) ops p.2 res (le_trans hc hr.1)
                  (StackInv.cons
                    (fun nfa hn => (hr.2 nfa hn).widen hc (le_refl _))
                    (hinv.widenStack (le_refl _) hr.1)) h
                exact ⟨le_trans hr.1 this.1, this.2⟩
          · split at h
            · -- escape
              split at h
              · cases h
              next nx hnx =>
                split at h
                · -- \L : empty fragment
                  have hem2 : (Nfa.emptyNfa c).2 = c + 2 := rfl
                  rw [hem2] at h
                  have := ih (i + 2) (some (Nfa.emptyNfa c).1 :: st) ops (c + 2) res
                    (by omega)
                    (StackInv.cons
                      (fun nfa hn => by
                        injection hn with hn2
                        subst hn2
                        refine ⟨rfl, fun e he => ?_⟩
                        have he2 : some (c + 1) = some e := he
                        injection he2 with he3
                        omega)
                      (hinv.widenStack (le_refl _) (by omega))) h
                  exact ⟨le_trans (by omega) this.1, this.2⟩
                · -- escaped literal
                  unfold andThen at h
                  split at h
                  · cases h
                  next p heqr =>
                    dsimp only at h
                    have hr := from_simple_regex_spec
                      (show from_simple_regex [nx] c = Except.ok (p.1, p.2) by rw [heqr])
                    have := ih (i + 2) (p.1 :: st) ops p.2 res (le_trans hc hr.1)
                      (StackInv.cons
                        (fun nfa hn => (hr.2 nfa hn).widen hc (le_refl _))
                        (hinv.widenStack (le_refl _) hr.1)) h
                    exact ⟨le_trans hr.1 this.1, this.2⟩
            · split at h
              · -- plain operand (single char or range)
                split at h
                · unfold andThen at h
                  split at h
                  · cases h
                  next p heqr =>
                    dsimp only at h
                    have hr := from_simple_regex_spec
                      (show from_simple_regex ((chars.drop i).take 3) c =
                        Except.ok (p.1, p.2) by rw [heqr])
                    have := ih (i + 3) (p.1 :: st) ops p.2 res (le_trans hc hr.1)
                      (StackInv.cons
                        (fun nfa hn => (hr.2 nfa hn).widen hc (le_refl _))
                        (hinv.widenStack (le_refl _) hr.1)) h
                    exact ⟨le_trans hr.1 this.1, this.2⟩
                · unfold andThen at h
                  split at h
                  · cases h
                  next p heqr =>
                    dsimp only at h
                    have hr := from_simple_regex_spec
                      (show from_simple_regex [cc] c = Except.ok (p.1, p.2) by rw [heqr])
                    have := ih (i + 1) (p.1 :: st) ops p.2 res (le_trans hc hr.1)
                      (StackInv.cons
                        (fun nfa hn => (hr.2 nfa hn).widen hc (le_refl _))
                        (hinv.widenStack (le_refl _) hr.1)) h
                    exact ⟨le_trans hr.1 this.1, this.2⟩
              · -- operator
                split at h
                · exact ih (i + 1) st [cc] c res hc hinv h
                · split at h
                  · exact ih (i + 1) st _ c res hc hinv h
                  · unfold andThen at h
                    split at h
                    · cases h
                    next p heqd =>
                      dsimp only at h
                      have hd := drainWhile_spec _ st c p hc hinv heqd
                      have := ih (i + 1) p.1.2 (cc :: p.1.1) p.2 res
                        (le_trans hc hd.1) hd.2 h
                      exact ⟨le_trans hd.1 this.1, this.2⟩

theorem fromRegexF_spec :
    ∀ (fuel : Nat) (chars : List Char) (c : Nat) (r : Option Nfa) (c2 : Nat),
      fromRegexF fuel chars c = Except.ok (r, c2) →
      c ≤ c2 ∧ ∀ nfa, r = some nfa → FragInv c c2 nfa := by
  intro fuel
  induction fuel with
  | zero => intro chars c r c2 h; cases h
  | succ n ih =>
      intro chars c r c2 h
      unfold fromRegexF andThen at h
      split at h
      · cases h
      next p heq =>
        dsimp only at h
        split at h
        · cases h
        next q heq2 =>
          injection h with h2
          have h3 := congrArg Prod.fst h2
          have h4 := congrArg Prod.snd h2
          dsimp only at h3 h4
          subst h3
          subst h4
          have hscan := @scanLoop_spec (fromRegexF n)
            (fun sub cc rr cc2 hh => ih sub cc rr cc2 hh) chars c
            (chars.length + 1) 0 [] [] c p (le_refl c) StackInv.nil heq
          have hdrain := drainAll_spec p.1.2 p.1.1 p.2 q hscan.1 hscan.2 heq2
          refine ⟨le_trans hscan.1 hdrain.1, ?_⟩
          intro nfa hn
          exact hdrain.2 _ (popOpt_fst hn) nfa rfl

theorem from_regex_spec {s : String} {c : Nat} {r : Option Nfa} {c2 : Nat}
    (h : from_regex s c = Except.ok (r, c2)) :
    c ≤ c2 ∧ ∀ nfa, r = some nfa → FragInv c c2 nfa :=
  fromRegexF_spec _ _ _ _ _ h

theorem find_acc_of_nodup {l : List (Nat × String)}
    (hnd : (l.map Prod.fst).Nodup) {p : Nat × String} (hp : p ∈ l) :
    l.find? (fun q => q.1 = p.1) = some p := by
  induction l with
  | nil => cases hp
  | cons a t ih =>
      rw [List.map_cons, List.nodup_cons] at hnd
      rcases List.mem_cons.mp hp with rfl | hpt
      · rw [List.find?_cons_of_pos _ (by simp)]
      · have ha : ¬(a.1 = p.1) := by
          intro hcon
          exact hnd.1 (hcon ▸ List.mem_map_of_mem Prod.fst hpt)
        rw [List.find?_cons_of_neg _ (by simp [ha])]
        exact ih hnd.2 hpt

theorem lookupAcc_of_nodup {g : Graph}
    (hnd : (g.acc.map Prod.fst).Nodup) {p : Nat × String} (hp : p ∈ g.acc) :
    g.lookupAcc p.1 = some p.2 := by
  unfold Graph.lookupAcc
  rw [find_acc_of_nodup hnd hp]
  rfl

theorem mapInner_ok {α : Type} {x : Except CompileErr α} {y : α}
    (h : mapInner x = Except.ok y) : x = Except.ok y := by
  cases x with
  | error e => cases h
  | ok a => injection h with h2; subst h2; rfl

theorem ftLoop_spec :
    ∀ (ts : List GrammarToken) (nfa : Nfa) (c : Nat) (r : Nfa) (c' : Nat),
      (∀ p ∈ nfa.graph.acc, p.1 < c) →
      (nfa.graph.acc.map Prod.fst).Nodup →
      ftLoop nfa ts c = Except.ok (r, c') →
      c ≤ c' ∧
      r.graph.acc.map Prod.snd =
        (ts.map (fun t => t.name)).reverse ++ nfa.graph.acc.map Prod.snd ∧
      (∀ p ∈ r.graph.acc, p.1 < c') ∧
      (r.graph.acc.map Prod.fst).Nodup := by
  intro ts
  induction ts with
  | nil =>
      intro nfa c r c' hlt hnd h
      injection h with h2
      have h3 := congrArg Prod.fst h2
      have h4 := congrArg Prod.snd h2
      dsimp only at h3 h4
      subst h3
      subst h4
      exact ⟨le_refl c, by simp, hlt, hnd⟩
  | cons t rest ih =>
      intro nfa c r c' hlt hnd h
      unfold ftLoop andThen at h
      split at h
      · cases h
      next p heq =>
        dsimp only at h
        split at h
        · cases h
        next tn htn =>
          split at h
          · cases h
          next te hte =>
            split at h
            · cases h
            next q hequ =>
              have hfr := from_regex_spec
                (show from_regex (add_concatenation_operator_to_regex t.regex) c =
                  Except.ok (p.1, p.2) by rw [heq])
              have hfrag := hfr.2 tn htn
              have hte2 := hfrag.2 te hte
              have hu := union_parts
                (show nfa.union { tn with graph := tn.graph.setAcc te t.name } p.2 =
                  Except.ok (q.1, q.2) by rw [hequ])
              have hacc : q.1.graph.acc = (te, t.name) :: nfa.graph.acc := by
                rw [hu.2.1]
                simp [Graph.setAcc, hfrag.1]
              have hkeys : ∀ p2 ∈ q.1.graph.acc, p2.1 < q.2 := by
                intro p2 hp2
                rw [hacc] at hp2
                rcases List.mem_cons.mp hp2 with rfl | hp3
                · dsimp only
                  omega
                · have := hlt p2 hp3
                  omega
              have hnd2 : (q.1.graph.acc.map Prod.fst).Nodup := by
                rw [hacc, List.map_cons, List.nodup_cons]
                refine ⟨?_, hnd⟩
                intro hcon
                obtain ⟨p3, hp3, hp4⟩ := List.mem_map.mp hcon
                have := hlt p3 hp3
                omega
              have hrest := ih q.1 q.2 r c' hkeys hnd2 h
              refine ⟨by omega, ?_, hrest.2.2.1, hrest.2.2.2⟩
              rw [hrest.2.1, hacc]
              simp

/-- C7: after the multi-token compile, the acceptance table of the
combined automaton carries exactly one entry per token — that token's
original end state paired with that token's name, most recent token
first — and querying acceptance on any of those end states returns that
entry's own token name (never another token's name and never no label):
end-state ids of distinct tokens come from disjoint counter windows, so
the union's attribute merge cannot collide. -/
theorem C7_acceptance_labels {tokens : List GrammarToken} {c : Nat} {nfa : Nfa}
    {c' : Nat}
    (h : from_tokens tokens c = Except.ok (nfa, c')) :
    nfa.graph.acc.map Prod.snd = (tokens.map (fun t => t.name)).reverse ∧
    ∀ p ∈ nfa.graph.acc,
      get_token_name_from_acceptance_node nfa p.1 = some p.2 := by
  unfold from_tokens at h
  split at h
  · cases h
  next t rest =>
    have h2 := mapInner_ok h
    unfold andThen at h2
    split at h2
    · cases h2
    next p heq =>
      dsimp only at h2
      split at h2
      · cases h2
      next n0 hn0 =>
        split at h2
        · cases h2
        next e0 he0 =>
          have hfr := from_regex_spec
            (show from_regex (add_concatenation_operator_to_regex t.regex) c =
              Except.ok (p.1, p.2) by rw [heq])
          have hfrag := hfr.2 n0 hn0
          have he02 := hfrag.2 e0 he0
          have hacc0 : ({ n0 with graph := n0.graph.setAcc e0 t.name } : Nfa).graph.acc =
              [(e0, t.name)] := by
            simp [Graph.setAcc, hfrag.1]
          have hkeys0 : ∀ q ∈ ({ n0 with graph := n0.graph.setAcc e0 t.name } :
              Nfa).graph.acc, q.1 < p.2 := by
            rw [hacc0]
            intro q hq
            rcases List.mem_cons.mp hq with rfl | hq2
            · dsimp only
              omega
            · cases hq2
          have hnd0 : ((({ n0 with graph := n0.graph.setAcc e0 t.name } :
              Nfa).graph.acc).map Prod.fst).Nodup := by
            rw [hacc0]
            simp
          have hloop := ftLoop_spec rest _ p.2 nfa c' hkeys0 hnd0 h2
          constructor
          · rw [hloop.2.1, hacc0]
            simp
          · intro q hq
            exact lookupAcc_of_nodup hloop.2.2.2 hq

/-- The automaton the multi-token compile produces for the token list
`[("A", "a"), ("B", "b")]` starting at counter `1`. -/
def c7nfa : Nfa :=
  ⟨some 5, some 6,
    ⟨[⟨1, 2, PyVal.str "'a'"⟩, ⟨5, 1, PyVal.str "ε"⟩, ⟨5, 3, PyVal.str "ε"⟩,
      ⟨2, 6, PyVal.str "ε"⟩, ⟨4, 6, PyVal.str "ε"⟩, ⟨3, 4, PyVal.str "'b'"⟩],
     [(4, "B"), (2, "A")]⟩⟩

/-- Witness for `C7_acceptance_labels` on the token list
`[("A", "a"), ("B", "b")]` compiled at counter `1`. -/
theorem C7_acceptance_labels_witness :
    c7nfa.graph.acc.map Prod.snd =
      (([⟨"A", "a"⟩, ⟨"B", "b"⟩] : List GrammarToken).map (fun t => t.name)).reverse ∧
    ∀ p ∈ c7nfa.graph.acc,
      get_token_name_from_acceptance_node c7nfa p.1 = some p.2 :=
  @C7_acceptance_labels [⟨"A", "a"⟩, ⟨"B", "b"⟩] 1 c7nfa 7 rfl

/-- The branch structure §4.6 of the spec describes for `range(a, b)`:
for each ordinal `k`, a private branch
`start —ε→ gate_k —k→ inner_k —ε→ end`, all branches sharing the one
start `s` and the one end `e`, with the gate/inner ids allocated in
order starting at `g`.  This is the spec-side closed form compared
against the graph `add_nodes_in_range` builds. -/
def rangeTriples (s e : Nat) : List Nat → Nat → List Edge
  | [], _ => []
  | k :: ks, g =>
      ⟨s, g, epsV⟩ :: ⟨g, g + 1, PyVal.int k⟩ :: ⟨g + 1, e, epsV⟩ ::
        rangeTriples s e ks (g + 2)

theorem addRangeLoop_edges (s e : Nat) :
    ∀ (ks : List Nat) (g : Graph) (c : Nat),
      (addRangeLoop s e ks g c).1.edges = g.edges ++ rangeTriples s e ks c := by
  intro ks
  induction ks with
  | nil => intro g c; simp [addRangeLoop, rangeTriples]
  | cons k t ih => intro g c; simp [addRangeLoop, ih, Graph.addEdge, rangeTriples]

theorem edge_mk_eq {s1 s2 d1 d2 : Nat} {w1 w2 : PyVal} (h1 : s1 = s2)
    (h2 : d1 = d2) (h3 : w1 = w2) : (⟨s1, d1, w1⟩ : Edge) = ⟨s2, d2, w2⟩ := by
  subst h1
  subst h2
  subst h3
  rfl

theorem mem_rangeTriples {s e : Nat} {ed : Edge} :
    ∀ (cnt a0 g : Nat),
      (ed ∈ rangeTriples s e (List.range' a0 cnt) g ↔
       ∃ i, i < cnt ∧
         (ed = ⟨s, g + 2 * i, epsV⟩ ∨
          ed = ⟨g + 2 * i, g + 2 * i + 1, PyVal.int (a0 + i)⟩ ∨
          ed = ⟨g + 2 * i + 1, e, epsV⟩)) := by
  intro cnt
  induction cnt with
  | zero =>
      intro a0 g
      simp [rangeTriples]
  | succ n ih =>
      intro a0 g
      have hr : List.range' a0 (n + 1) = a0 :: List.range' (a0 + 1) n := rfl
      rw [hr]
      simp only [rangeTriples, List.mem_cons, ih (a0 + 1) (g + 2)]
      constructor
      · rintro (rfl | rfl | rfl | ⟨i, hi, hf⟩)
        · exact ⟨0, Nat.succ_pos n, Or.inl (by simp)⟩
        · exact ⟨0, Nat.succ_pos n, Or.inr (Or.inl (by simp))⟩
        · exact ⟨0, Nat.succ_pos n, Or.inr (Or.inr (by simp))⟩
        · refine ⟨i + 1, by omega, ?_⟩
          rcases hf with rfl | rfl | rfl
          · exact Or.inl (edge_mk_eq rfl (by omega) rfl)
          · exact Or.inr (Or.inl (edge_mk_eq (by omega) (by omega)
              (congrArg PyVal.int (by omega))))
          · exact Or.inr (Or.inr (edge_mk_eq (by omega) rfl rfl))
      · rintro ⟨i, hi, hf⟩
        match i with
        | 0 =>
            rcases hf with rfl | rfl | rfl
            · exact Or.inl (by simp)
            · exact Or.inr (Or.inl (by simp))
            · exact Or.inr (Or.inr (Or.inl (by simp)))
        | j + 1 =>
            refine Or.inr (Or.inr (Or.inr ⟨j, by omega, ?_⟩))
            rcases hf with rfl | rfl | rfl
            · exact Or.inl (edge_mk_eq rfl (by omega) rfl)
            · exact Or.inr (Or.inl (edge_mk_eq (by omega) (by omega)
                (congrArg PyVal.int (by omega))))
            · exact Or.inr (Or.inr (edge_mk_eq (by omega) rfl rfl))

/-- The graph of the range fragment over ordinals
`a0, a0+1, …, a0+cnt-1`, with start `c`, end `c+1` and branch ids from
`c+2`. -/
def rgGraph (c a0 cnt : Nat) : Graph :=
  ⟨rangeTriples c (c + 1) (List.range' a0 cnt) (c + 2), []⟩

/-- The fragment `from_character_or_range` builds for the range `a-b`
at counter `c`, in closed form. -/
def rangeNfa (a b : Char) (c : Nat) : Nfa :=
  ⟨some c, some (c + 1), rgGraph c a.toNat (b.toNat + 1 - a.toNat)⟩

theorem rg_mem {c a0 cnt : Nat} {ed : Edge} :
    ed ∈ (rgGraph c a0 cnt).edges ↔
    ∃ i, i < cnt ∧
      (ed = ⟨c, c + 2 + 2 * i, epsV⟩ ∨
       ed = ⟨c + 2 + 2 * i, c + 2 + 2 * i + 1, PyVal.int (a0 + i)⟩ ∨
       ed = ⟨c + 2 + 2 * i + 1, c + 1, epsV⟩) :=
  mem_rangeTriples cnt a0 (c + 2)

/-- The set of gate states of the range fragment. -/
def gatesFin (c cnt : Nat) : Finset Nat :=
  ((List.range cnt).map (fun i => c + 2 + 2 * i)).toFinset

theorem mem_gatesFin {c cnt x : Nat} :
    x ∈ gatesFin c cnt ↔ ∃ i, i < cnt ∧ x = c + 2 + 2 * i := by
  simp [gatesFin, eq_comm]

theorem find?_unique {α : Type} {l : List α} {p : α → Bool} {x : α}
    (hx : x ∈ l) (hpx : p x = true) (huniq : ∀ y ∈ l, p y = true → y = x) :
    l.find? p = some x := by
  induction l with
  | nil => cases hx
  | cons a t ih =>
      by_cases hpa : p a = true
      · rw [List.find?_cons_of_pos _ hpa]
        rw [huniq a (List.mem_cons_self a t) hpa]
      · rw [List.find?_cons_of_neg _ hpa]
        rcases List.mem_cons.mp hx with rfl | hxt
        · exact absurd hpx hpa
        · exact ih hxt (fun y hy hpy => huniq y (List.mem_cons_of_mem a hy) hpy)

theorem mem_neighbors {g : Graph} {n x : Nat} :
    x ∈ g.neighbors n ↔ ∃ ed ∈ g.edges, ed.src = n ∧ ed.dst = x := by
  simp only [Graph.neighbors, List.mem_dedup, List.mem_map, List.mem_filter,
    decide_eq_true_eq]
  constructor
  · rintro ⟨ed, ⟨hed, hsrc⟩, hdst⟩
    exact ⟨ed, hed, hsrc, hdst⟩
  · rintro ⟨ed, hed, hsrc, hdst⟩
    exact ⟨ed, ⟨hed, hsrc⟩, hdst⟩

theorem rg_few_start_gate {c a0 cnt i : Nat} (hi : i < cnt) :
    (rgGraph c a0 cnt).firstEdgeWeight c (c + 2 + 2 * i) = some epsV := by
  unfold Graph.firstEdgeWeight
  rw [find?_unique (x := (⟨c, c + 2 + 2 * i, epsV⟩ : Edge))
    (rg_mem.mpr ⟨i, hi, Or.inl rfl⟩) (by simp) ?_]
  · rfl
  · intro y hy hpy
    obtain ⟨j, hj, hf⟩ := rg_mem.mp hy
    simp only [Bool.and_eq_true, decide_eq_true_eq] at hpy
    rcases hf with rfl | rfl | rfl
    · have h1 : c + 2 + 2 * j = c + 2 + 2 * i := hpy.2
      have h2 : j = i := by omega
      subst h2
      rfl
    · have h1 : c + 2 + 2 * j = c := hpy.1
      exact absurd h1 (by omega)
    · have h1 : c + 2 + 2 * j + 1 = c := hpy.1
      exact absurd h1 (by omega)

theorem rg_few_gate_inner {c a0 cnt i : Nat} (hi : i < cnt) :
    (rgGraph c a0 cnt).firstEdgeWeight (c + 2 + 2 * i) (c + 2 + 2 * i + 1) =
      some (PyVal.int (a0 + i)) := by
  unfold Graph.firstEdgeWeight
  rw [find?_unique (x := (⟨c + 2 + 2 * i, c + 2 + 2 * i + 1, PyVal.int (a0 + i)⟩ : Edge))
    (rg_mem.mpr ⟨i, hi, Or.inr (Or.inl rfl)⟩) (by simp) ?_]
  · rfl
  · intro y hy hpy
    obtain ⟨j, hj, hf⟩ := rg_mem.mp hy
    simp only [Bool.and_eq_true, decide_eq_true_eq] at hpy
    rcases hf with rfl | rfl | rfl
    · have h1 : c = c + 2 + 2 * i := hpy.1
      exact absurd h1 (by omega)
    · have h1 : c + 2 + 2 * j = c + 2 + 2 * i := hpy.1
      have h2 : j = i := by omega
      subst h2
      rfl
    · have h1 : c + 2 + 2 * j + 1 = c + 2 + 2 * i := hpy.1
      exact absurd h1 (by omega)

theorem rg_few_inner_end {c a0 cnt i : Nat} (hi : i < cnt) :
    (rgGraph c a0 cnt).firstEdgeWeight (c + 2 + 2 * i + 1) (c + 1) = some epsV := by
  unfold Graph.firstEdgeWeight
  rw [find?_unique (x := (⟨c + 2 + 2 * i + 1, c + 1, epsV⟩ : Edge))
    (rg_mem.mpr ⟨i, hi, Or.inr (Or.inr rfl)⟩) (by simp) ?_]
  · rfl
  · intro y hy hpy
    obtain ⟨j, hj, hf⟩ := rg_mem.mp hy
    simp only [Bool.and_eq_true, decide_eq_true_eq] at hpy
    rcases hf with rfl | rfl | rfl
    · have h1 : c = c + 2 + 2 * i + 1 := hpy.1
      exact absurd h1 (by omega)
    · have h1 : c + 2 + 2 * j = c + 2 + 2 * i + 1 := hpy.1
      exact absurd h1 (by omega)
    · have h1 : c + 2 + 2 * j + 1 = c + 2 + 2 * i + 1 := hpy.1
      have h2 : j = i := by omega
      subst h2
      rfl

theorem rg_closure1_start (c a0 cnt : Nat) :
    epsilonClosure1 (rgGraph c a0 cnt) c = insert c (gatesFin c cnt) := by
  unfold epsilonClosure1
  ext x
  simp only [Finset.mem_insert, List.mem_toFinset, List.mem_filter, mem_gatesFin,
    decide_eq_true_eq]
  constructor
  · rintro (rfl | ⟨hnb, hw⟩)
    · exact Or.inl rfl
    · obtain ⟨ed, hed, hsrc, hdst⟩ := mem_neighbors.mp hnb
      obtain ⟨i, hi, hf⟩ := rg_mem.mp hed
      rcases hf with rfl | rfl | rfl
      · have h1 : c + 2 + 2 * i = x := hdst
        exact Or.inr ⟨i, hi, h1.symm⟩
      · have h1 : c + 2 + 2 * i = c := hsrc
        exact absurd h1 (by omega)
      · have h1 : c + 2 + 2 * i + 1 = c := hsrc
        exact absurd h1 (by omega)
  · rintro (rfl | ⟨i, hi, rfl⟩)
    · exact Or.inl rfl
    · refine Or.inr ⟨mem_neighbors.mpr
        ⟨⟨c, c + 2 + 2 * i, epsV⟩, rg_mem.mpr ⟨i, hi, Or.inl rfl⟩, rfl, rfl⟩, ?_⟩
      exact rg_few_start_gate hi

theorem rg_closure1_gate {c a0 cnt i : Nat} (hi : i < cnt) :
    epsilonClosure1 (rgGraph c a0 cnt) (c + 2 + 2 * i) = {c + 2 + 2 * i} := by
  unfold epsilonClosure1
  ext x
  simp only [Finset.mem_insert, Finset.mem_singleton, List.mem_toFinset,
    List.mem_filter, decide_eq_true_eq]
  constructor
  · rintro (rfl | ⟨hnb, hw⟩)
    · rfl
    · obtain ⟨ed, hed, hsrc, hdst⟩ := mem_neighbors.mp hnb
      obtain ⟨j, hj, hf⟩ := rg_mem.mp hed
      rcases hf with rfl | rfl | rfl
      · have h1 : c = c + 2 + 2 * i := hsrc
        exact absurd h1 (by omega)
      · have h1 : c + 2 + 2 * j = c + 2 + 2 * i := hsrc
        have h2 : j = i := by omega
        subst h2
        have h3 : c + 2 + 2 * j + 1 = x := hdst
        rw [← h3] at hw
        have h4 : some (PyVal.int (a0 + j)) = some epsV :=
          (rg_few_gate_inner hj).symm.trans hw
        injection h4 with h5
        exact absurd h5 (by simp [epsV])
      · have h1 : c + 2 + 2 * j + 1 = c + 2 + 2 * i := hsrc
        exact absurd h1 (by omega)
  · rintro rfl
    exact Or.inl rfl

theorem rg_closure1_inner {c a0 cnt i : Nat} (hi : i < cnt) :
    epsilonClosure1 (rgGraph c a0 cnt) (c + 2 + 2 * i + 1) =
      {c + 2 + 2 * i + 1, c + 1} := by
  unfold epsilonClosure1
  ext x
  simp only [Finset.mem_insert, Finset.mem_singleton, List.mem_toFinset,
    List.mem_filter, decide_eq_true_eq]
  constructor
  · rintro (rfl | ⟨hnb, hw⟩)
    · exact Or.inl rfl
    · obtain ⟨ed, hed, hsrc, hdst⟩ := mem_neighbors.mp hnb
      obtain ⟨j, hj, hf⟩ := rg_mem.mp hed
      rcases hf with rfl | rfl | rfl
      · have h1 : c = c + 2 + 2 * i + 1 := hsrc
        exact absurd h1 (by omega)
      · have h1 : c + 2 + 2 * j = c + 2 + 2 * i + 1 := hsrc
        exact absurd h1 (by omega)
      · have h1 : c + 1 = x := hdst
        exact Or.inr h1.symm
  · rintro (rfl | rfl)
    · exact Or.inl rfl
    · refine Or.inr ⟨mem_neighbors.mpr
        ⟨⟨c + 2 + 2 * i + 1, c + 1, epsV⟩, rg_mem.mpr ⟨i, hi, Or.inr (Or.inr rfl)⟩,
          rfl, rfl⟩, ?_⟩
      exact rg_few_inner_end hi

theorem rg_closure1_end (c a0 cnt : Nat) :
    epsilonClosure1 (rgGraph c a0 cnt) (c + 1) = {c + 1} := by
  unfold epsilonClosure1
  ext x
  simp only [Finset.mem_insert, Finset.mem_singleton, List.mem_toFinset,
    List.mem_filter, decide_eq_true_eq]
  constructor
  · rintro (rfl | ⟨hnb, hw⟩)
    · rfl
    · obtain ⟨ed, hed, hsrc, hdst⟩ := mem_neighbors.mp hnb
      obtain ⟨j, hj, hf⟩ := rg_mem.mp hed
      rcases hf with rfl | rfl | rfl
      · have h1 : c = c + 1 := hsrc
        exact absurd h1 (by omega)
      · have h1 : c + 2 + 2 * j = c + 1 := hsrc
        exact absurd h1 (by omega)
      · have h1 : c + 2 + 2 * j + 1 = c + 1 := hsrc
        exact absurd h1 (by omega)
  · rintro rfl
    exact Or.inl rfl

theorem rg_closure_start (c a0 cnt : Nat) :
    getEpsilonClosures (rgGraph c a0 cnt) {c} = insert c (gatesFin c cnt) := by
  apply getEpsilonClosures_eq
  · intro x hx
    rw [Finset.mem_singleton] at hx
    subst hx
    exact Finset.mem_insert_self _ _
  · intro n hn
    rcases Finset.mem_insert.mp hn with rfl | hg
    · rw [rg_closure1_start]
    · obtain ⟨i, hi, rfl⟩ := mem_gatesFin.mp hg
      rw [rg_closure1_gate hi]
      exact Finset.singleton_subset_iff.mpr (Finset.mem_insert_of_mem hg)
  · intro U hSU hclU
    intro x hx
    have hcU : c ∈ U := hSU (Finset.mem_singleton_self c)
    rcases Finset.mem_insert.mp hx with rfl | hg
    · exact hcU
    · have h2 := hclU c hcU
      rw [rg_closure1_start] at h2
      exact h2 (Finset.mem_insert_of_mem hg)

theorem rg_closure_gates (c a0 cnt : Nat) :
    getEpsilonClosures (rgGraph c a0 cnt) (gatesFin c cnt) = gatesFin c cnt := by
  apply getEpsilonClosures_eq (Finset.Subset.refl _)
  · intro n hn
    obtain ⟨i, hi, rfl⟩ := mem_gatesFin.mp hn
    rw [rg_closure1_gate hi]
    exact Finset.singleton_subset_iff.mpr hn
  · intro U hSU _
    exact hSU

theorem rg_closure_inner {c a0 cnt i : Nat} (hi : i < cnt) :
    getEpsilonClosures (rgGraph c a0 cnt) {c + 2 + 2 * i + 1} =
      {c + 2 + 2 * i + 1, c + 1} := by
  apply getEpsilonClosures_eq
  · intro x hx
    rw [Finset.mem_singleton] at hx
    subst hx
    exact Finset.mem_insert_self _ _
  · intro n hn
    rcases Finset.mem_insert.mp hn with rfl | hn2
    · rw [rg_closure1_inner hi]
    · rw [Finset.mem_singleton] at hn2
      subst hn2
      rw [rg_closure1_end]
      intro y hy
      rw [Finset.mem_singleton] at hy
      subst hy
      exact Finset.mem_insert_of_mem (Finset.mem_singleton_self _)
  · intro U hSU hclU
    have hiU : c + 2 + 2 * i + 1 ∈ U := hSU (Finset.mem_singleton_self _)
    intro x hx
    rcases Finset.mem_insert.mp hx with rfl | hx2
    · exact hiU
    · rw [Finset.mem_singleton] at hx2
      subst hx2
      have h2 := hclU _ hiU
      rw [rg_closure1_inner hi] at h2
      exact h2 (Finset.mem_insert_of_mem (Finset.mem_singleton_self _))

theorem charToStr_inj {x y : Char} (h : charToStr x = charToStr y) : x = y := by
  have h2 := congrArg String.data h
  simp only [charToStr] at h2
  exact List.head_eq_of_cons_eq h2

theorem matchesInput_eps_char {k : Char} :
    matchesInput epsV (charToStr k) ↔ k = epsChar := by
  rw [matchesInput_eps]
  constructor
  · intro h
    exact charToStr_inj h
  · rintro rfl
    rfl

theorem toNat_ofNat {n : Nat} (h : n.isValidChar) : (Char.ofNat n).toNat = n := by
  unfold Char.ofNat
  rw [dif_pos h]
  rfl

theorem matchesInput_int_char {m : Nat} {k : Char} (hm : m.isValidChar) :
    matchesInput (PyVal.int m) (charToStr k) ↔ k.toNat = m := by
  rw [matchesInput_int]
  constructor
  · intro h
    rw [charToStr_inj h]
    exact toNat_ofNat hm
  · intro h
    have h2 : Char.ofNat m = k := by rw [← h, Char.ofNat_toNat]
    rw [← h2]

theorem mem_move {g : Graph} {S : Finset Nat} {I : Finset String} {x : Nat} :
    x ∈ FA.move g S I ↔
    ∃ ed ∈ g.edges, ed.src ∈ getEpsilonClosures g S ∧
      (∃ y ∈ I, matchesInput ed.w y) ∧ ed.dst = x := by
  unfold FA.move
  rw [union_getEpsilonClosures]
  simp only [List.mem_toFinset, List.mem_map, List.mem_filter, decide_eq_true_eq]
  constructor
  · rintro ⟨ed, ⟨hed, hsrc, hm⟩, hdst⟩
    exact ⟨ed, hed, hsrc, hm, hdst⟩
  · rintro ⟨ed, hed, hsrc, hm, hdst⟩
    exact ⟨ed, ⟨hed, hsrc, hm⟩, hdst⟩

theorem move_empty (g : Graph) (I : Finset String) : FA.move g ∅ I = ∅ := by
  ext x
  rw [mem_move]
  simp [getEpsilonClosures_empty]

theorem rg_move_start {c a0 cnt : Nat} {k : Char}
    (hval : ∀ j, a0 ≤ j → j < a0 + cnt → j.isValidChar) :
    FA.move (rgGraph c a0 cnt) {c} {charToStr k} =
      (if k = epsChar then gatesFin c cnt else ∅) ∪
      (if a0 ≤ k.toNat ∧ k.toNat < a0 + cnt
        then {c + 2 + 2 * (k.toNat - a0) + 1} else ∅) := by
  ext x
  rw [mem_move]
  constructor
  · rintro ⟨ed, hed, hsrc, hm, hdst⟩
    obtain ⟨y, hy, hmy⟩ := hm
    rw [Finset.mem_singleton] at hy
    subst hy
    obtain ⟨i, hi, hf⟩ := rg_mem.mp hed
    rcases hf with rfl | rfl | rfl
    · have hk : k = epsChar := matchesInput_eps_char.mp hmy
      subst hk
      apply Finset.mem_union_left
      rw [if_pos rfl]
      have h1 : c + 2 + 2 * i = x := hdst
      exact mem_gatesFin.mpr ⟨i, hi, h1.symm⟩
    · have hmk := (matchesInput_int_char (hval (a0 + i) (by omega) (by omega))).mp hmy
      apply Finset.mem_union_right
      rw [if_pos ⟨by omega, by omega⟩, Finset.mem_singleton]
      have h1 : c + 2 + 2 * i + 1 = x := hdst
      omega
    · rw [rg_closure_start] at hsrc
      rcases Finset.mem_insert.mp hsrc with h1 | h1
      · have h2 : c + 2 + 2 * i + 1 = c := h1
        exact absurd h2 (by omega)
      · obtain ⟨j, hj, h2⟩ := mem_gatesFin.mp h1
        have h3 : c + 2 + 2 * i + 1 = c + 2 + 2 * j := h2
        exact absurd h3 (by omega)
  · intro hx
    rcases Finset.mem_union.mp hx with h1 | h1
    · by_cases hk : k = epsChar
      case neg => rw [if_neg hk] at h1; exact absurd h1 (Finset.not_mem_empty x)
      subst hk
      rw [if_pos rfl] at h1
      obtain ⟨i, hi, rfl⟩ := mem_gatesFin.mp h1
      refine ⟨⟨c, c + 2 + 2 * i, epsV⟩, rg_mem.mpr ⟨i, hi, Or.inl rfl⟩, ?_,
        ⟨charToStr epsChar, Finset.mem_singleton_self _,
          matchesInput_eps_char.mpr rfl⟩, rfl⟩
      rw [rg_closure_start]
      exact Finset.mem_insert_self _ _
    · by_cases hk : a0 ≤ k.toNat ∧ k.toNat < a0 + cnt
      case neg => rw [if_neg hk] at h1; exact absurd h1 (Finset.not_mem_empty x)
      rw [if_pos hk, Finset.mem_singleton] at h1
      subst h1
      refine ⟨⟨c + 2 + 2 * (k.toNat - a0), c + 2 + 2 * (k.toNat - a0) + 1,
        PyVal.int (a0 + (k.toNat - a0))⟩,
        rg_mem.mpr ⟨k.toNat - a0, by omega, Or.inr (Or.inl rfl)⟩, ?_,
        ⟨charToStr k, Finset.mem_singleton_self _, ?_⟩, rfl⟩
      · rw [rg_closure_start]
        exact Finset.mem_insert_of_mem (mem_gatesFin.mpr ⟨k.toNat - a0, by omega, rfl⟩)
      · exact (matchesInput_int_char
          (hval (a0 + (k.toNat - a0)) (by omega) (by omega))).mpr (by omega)

theorem rg_move_inner {c a0 cnt i : Nat} {k : Char} (hi : i < cnt)
    (hk : k ≠ epsChar) :
    FA.move (rgGraph c a0 cnt) {c + 2 + 2 * i + 1} {charToStr k} = ∅ := by
  ext x
  rw [mem_move]
  simp only [Finset.not_mem_empty, iff_false, not_exists]
  intro ed hed
  obtain ⟨hedm, hsrc, hm, hdst⟩ := hed
  rw [rg_closure_inner hi] at hsrc
  obtain ⟨y, hy, hmy⟩ := hm
  rw [Finset.mem_singleton] at hy
  subst hy
  obtain ⟨j, hj, hf⟩ := rg_mem.mp hedm
  rcases hf with rfl | rfl | rfl
  · rcases Finset.mem_insert.mp hsrc with h1 | h1
    · have h2 : c = c + 2 + 2 * i + 1 := h1
      exact absurd h2 (by omega)
    · have h2 : c = c + 1 := Finset.mem_singleton.mp h1
      exact absurd h2 (by omega)
  · rcases Finset.mem_insert.mp hsrc with h1 | h1
    · have h2 : c + 2 + 2 * j = c + 2 + 2 * i + 1 := h1
      exact absurd h2 (by omega)
    · have h2 : c + 2 + 2 * j = c + 1 := Finset.mem_singleton.mp h1
      exact absurd h2 (by omega)
  · exact hk (matchesInput_eps_char.mp hmy)

theorem addRangeLoop_graph (s e : Nat) :
    ∀ (ks : List Nat) (g : Graph) (c : Nat),
      (addRangeLoop s e ks g c).1 = ⟨g.edges ++ rangeTriples s e ks c, g.acc⟩ := by
  intro ks
  induction ks with
  | nil => intro g c; simp [addRangeLoop, rangeTriples]
  | cons kk t ih => intro g c; simp [addRangeLoop, ih, Graph.addEdge, rangeTriples]

theorem add_nodes_in_range_fresh_eq (a b : Char) (c : Nat) :
    Nfa.add_nodes_in_range Nfa.fresh a b c =
      (rangeNfa a b c, c + 2 + 2 * (b.toNat + 1 - a.toNat)) := by
  unfold Nfa.add_nodes_in_range rangeNfa rgGraph
  rw [addRangeLoop_graph, addRangeLoop_counter, List.length_range']
  rfl

/-- The stepping §8 of the spec describes: fold `move` over the word's
characters, starting from the given state set. -/
def runMove (g : Graph) (S : Finset Nat) (w : List Char) : Finset Nat :=
  w.foldl (fun T ch => FA.move g T {charToStr ch}) S

/-- Acceptance of a word by a compiled fragment, per the spec's stepping
scenario (§8): `move` closes its input and the caller closes the output,
then asks whether the fragment's end state was reached. -/
def nfaAccepts (nfa : Nfa) (w : List Char) : Prop :=
  match nfa.start_node, nfa.end_node with
  | some s, some e => e ∈ getEpsilonClosures nfa.graph (runMove nfa.graph {s} w)
  | _, _ => False

theorem runMove_cons (g : Graph) (S : Finset Nat) (k : Char) (w : List Char) :
    runMove g S (k :: w) = runMove g (FA.move g S {charToStr k}) w := rfl

theorem runMove_emptyset (g : Graph) : ∀ w : List Char, runMove g ∅ w = ∅ := by
  intro w
  induction w with
  | nil => rfl
  | cons k t ih => rw [runMove_cons, move_empty]; exact ih

theorem char_le_iff {x y : Char} : x ≤ y ↔ x.toNat ≤ y.toNat := by
  rw [Char.le_def]
  exact ⟨fun h => h, fun h => h⟩

theorem char_lt_iff {x y : Char} : x < y ↔ x.toNat < y.toNat := by
  rw [Char.lt_def]
  exact ⟨fun h => h, fun h => h⟩

theorem from_character_or_range_range (a b : Char) (c : Nat) :
    (¬a < b → Nfa.from_character_or_range Nfa.fresh [a, '-', b] c =
      Except.error CompileErr.invalidRange) ∧
    (a < b → Nfa.from_character_or_range Nfa.fresh [a, '-', b] c =
      Except.ok (rangeNfa a b c, c + 2 + 2 * (b.toNat + 1 - a.toNat))) := by
  have hcond : (([a, '-', b] : List Char).contains '-' = true ∧
      ([a, '-', b] : List Char).length = 3) := by
    constructor
    · simp [List.contains]
    · rfl
  constructor
  · intro hab
    unfold Nfa.from_character_or_range andThen
    rw [if_pos hcond]
    dsimp only
    rw [if_neg hab]
  · intro hab
    unfold Nfa.from_character_or_range andThen
    rw [if_pos hcond]
    dsimp only
    rw [if_pos hab, add_nodes_in_range_fresh_eq]
    dsimp only
    rw [if_neg (fun hcon => Option.noConfusion hcon)]

theorem c1_not_mem_gates {c cnt : Nat} : c + 1 ∉ gatesFin c cnt := by
  intro h
  obtain ⟨i, hi, h2⟩ := mem_gatesFin.mp h
  omega

theorem rangeNfa_accepts_nil {a b : Char} {c : Nat} :
    ¬nfaAccepts (rangeNfa a b c) [] := by
  unfold nfaAccepts rangeNfa
  dsimp only
  rw [show runMove (rgGraph c a.toNat (b.toNat + 1 - a.toNat)) {c} [] = {c} from rfl]
  rw [rg_closure_start]
  intro h
  rcases Finset.mem_insert.mp h with h1 | h1
  · omega
  · exact c1_not_mem_gates h1

theorem rangeNfa_accepts_single {a b : Char} {c : Nat} (hab : a < b)
    (hval : ∀ j, a.toNat ≤ j → j ≤ b.toNat → j.isValidChar) (k : Char) :
    nfaAccepts (rangeNfa a b c) [k] ↔ a ≤ k ∧ k ≤ b := by
  have hab2 := char_lt_iff.mp hab
  have hval2 : ∀ j, a.toNat ≤ j → j < a.toNat + (b.toNat + 1 - a.toNat) →
      j.isValidChar := fun j h1 h2 => hval j h1 (by omega)
  unfold nfaAccepts rangeNfa
  dsimp only
  rw [runMove_cons, rg_move_start hval2,
    show ∀ S : Finset Nat, runMove (rgGraph c a.toNat (b.toNat + 1 - a.toNat)) S [] = S
      from fun S => rfl,
    getEpsilonClosures_union]
  constructor
  · intro h
    rcases Finset.mem_union.mp h with h1 | h1
    · by_cases hk : k = epsChar
      · rw [if_pos hk, rg_closure_gates] at h1
        exact absurd h1 c1_not_mem_gates
      · rw [if_neg hk, getEpsilonClosures_empty] at h1
        exact absurd h1 (Finset.not_mem_empty _)
    · by_cases hr : a.toNat ≤ k.toNat ∧ k.toNat < a.toNat + (b.toNat + 1 - a.toNat)
      · exact ⟨char_le_iff.mpr hr.1, char_le_iff.mpr (by omega)⟩
      · rw [if_neg hr, getEpsilonClosures_empty] at h1
        exact absurd h1 (Finset.not_mem_empty _)
  · rintro ⟨h1, h2⟩
    have hle1 := char_le_iff.mp h1
    have hle2 := char_le_iff.mp h2
    have hr : a.toNat ≤ k.toNat ∧ k.toNat < a.toNat + (b.toNat + 1 - a.toNat) := by
      omega
    apply Finset.mem_union_right
    rw [if_pos hr, rg_closure_inner (show k.toNat - a.toNat <
      b.toNat + 1 - a.toNat by omega)]
    exact Finset.mem_insert_of_mem (Finset.mem_singleton_self _)

theorem rangeNfa_accepts_multi {a b : Char} {c : Nat}
    (hval : ∀ j, a.toNat ≤ j → j ≤ b.toNat → j.isValidChar) :
    ∀ w : List Char, 2 ≤ w.length → (∀ x ∈ w, x ≠ epsChar) →
      ¬nfaAccepts (rangeNfa a b c) w := by
  have hval2 : ∀ j, a.toNat ≤ j → j < a.toNat + (b.toNat + 1 - a.toNat) →
      j.isValidChar := fun j h1 h2 => hval j h1 (by omega)
  intro w hlen hfree
  match w, hlen with
  | k1 :: k2 :: rest, _ =>
      unfold nfaAccepts rangeNfa
      dsimp only
      rw [runMove_cons, rg_move_start hval2, if_neg (hfree k1 (by simp)),
        Finset.empty_union]
      by_cases hr : a.toNat ≤ k1.toNat ∧ k1.toNat < a.toNat + (b.toNat + 1 - a.toNat)
      · rw [if_pos hr, runMove_cons,
          rg_move_inner (show k1.toNat - a.toNat < b.toNat + 1 - a.toNat by omega)
            (hfree k2 (by simp)),
          runMove_emptyset, getEpsilonClosures_empty]
        exact Finset.not_mem_empty _
      · rw [if_neg hr, runMove_emptyset, getEpsilonClosures_empty]
        exact Finset.not_mem_empty _

/-- C6: compiling the 3-character range pattern `a-b` fails with the
`InvalidRange` `ValueError` exactly when `ord(a) ≥ ord(b)`; when
`ord(a) < ord(b)` it succeeds and builds, for every ordinal `j` in
`[ord(a), ord(b)]`, a private branch
`start —ε→ gate_j —j→ inner_j —ε→ end` (one shared start `c` and one
shared end `c+1`, the branch states fresh), so that the fragment accepts
exactly the one-character words over `[a, b]`: it rejects the empty
word, accepts the single character `k` iff `a ≤ k ≤ b`, and rejects
every word of two or more characters (input symbols distinct from the
reserved epsilon marker).  The validity hypothesis keeps every ordinal
of the range a real character, matching Python's `chr`. -/
theorem C6_range (a b : Char) (c : Nat)
    (hval : ∀ j, a.toNat ≤ j → j ≤ b.toNat → j.isValidChar) :
    (¬a < b → Nfa.from_character_or_range Nfa.fresh [a, '-', b] c =
      Except.error CompileErr.invalidRange) ∧
    (a < b →
      Nfa.from_character_or_range Nfa.fresh [a, '-', b] c =
        Except.ok (rangeNfa a b c, c + 2 + 2 * (b.toNat + 1 - a.toNat)) ∧
      (∀ j, a.toNat ≤ j → j ≤ b.toNat →
        (⟨c, c + 2 + 2 * (j - a.toNat), epsV⟩ : Edge) ∈ (rangeNfa a b c).graph.edges ∧
        (⟨c + 2 + 2 * (j - a.toNat), c + 2 + 2 * (j - a.toNat) + 1,
          PyVal.int j⟩ : Edge) ∈ (rangeNfa a b c).graph.edges ∧
        (⟨c + 2 + 2 * (j - a.toNat) + 1, c + 1, epsV⟩ : Edge) ∈
          (rangeNfa a b c).graph.edges) ∧
      ¬nfaAccepts (rangeNfa a b c) [] ∧
      (∀ k : Char, nfaAccepts (rangeNfa a b c) [k] ↔ a ≤ k ∧ k ≤ b) ∧
      (∀ w : List Char, 2 ≤ w.length → (∀ x ∈ w, x ≠ epsChar) →
        ¬nfaAccepts (rangeNfa a b c) w)) := by
  refine ⟨(from_character_or_range_range a b c).1, fun hab =>
    ⟨(from_character_or_range_range a b c).2 hab, ?_, rangeNfa_accepts_nil,
      rangeNfa_accepts_single hab hval, rangeNfa_accepts_multi hval⟩⟩
  intro j h1 h2
  have hab2 := char_lt_iff.mp hab
  refine ⟨rg_mem.mpr ⟨j - a.toNat, by omega, Or.inl rfl⟩,
    rg_mem.mpr ⟨j - a.toNat, by omega, Or.inr (Or.inl
      (edge_mk_eq rfl rfl (congrArg PyVal.int (by omega))))⟩,
    rg_mem.mpr ⟨j - a.toNat, by omega, Or.inr (Or.inr rfl)⟩⟩

/-- Witness for `C6_range` at the range pattern `a-c` compiled at
counter `1`. -/
theorem C6_range_witness :
    (¬('a' < 'c') → Nfa.from_character_or_range Nfa.fresh ['a', '-', 'c'] 1 =
      Except.error CompileErr.invalidRange) ∧
    ('a' < 'c' →
      Nfa.from_character_or_range Nfa.fresh ['a', '-', 'c'] 1 =
        Except.ok (rangeNfa 'a' 'c' 1, 1 + 2 + 2 * ('c'.toNat + 1 - 'a'.toNat)) ∧
      (∀ j, 'a'.toNat ≤ j → j ≤ 'c'.toNat →
        (⟨1, 1 + 2 + 2 * (j - 'a'.toNat), epsV⟩ : Edge) ∈
          (rangeNfa 'a' 'c' 1).graph.edges ∧
        (⟨1 + 2 + 2 * (j - 'a'.toNat), 1 + 2 + 2 * (j - 'a'.toNat) + 1,
          PyVal.int j⟩ : Edge) ∈ (rangeNfa 'a' 'c' 1).graph.edges ∧
        (⟨1 + 2 + 2 * (j - 'a'.toNat) + 1, 1 + 1, epsV⟩ : Edge) ∈
          (rangeNfa 'a' 'c' 1).graph.edges) ∧
      ¬nfaAccepts (rangeNfa 'a' 'c' 1) [] ∧
      (∀ k : Char, nfaAccepts (rangeNfa 'a' 'c' 1) [k] ↔ 'a' ≤ k ∧ k ≤ 'c') ∧
      (∀ w : List Char, 2 ≤ w.length → (∀ x ∈ w, x ≠ epsChar) →
        ¬nfaAccepts (rangeNfa 'a' 'c' 1) w)) :=
  C6_range 'a' 'c' 1 (fun j h1 h2 => Or.inl (by
    have hc : 'c'.toNat = 99 := rfl
    omega))
